import Mathlib

/-!
# Verification of the Linux process-scheduler simulation (`src/main.cpp`)

A shallow embedding of the scheduling core of `main.cpp`: the `Process` and
`GanttEntry` records, the Round Robin engine (`round_robin`) and the
Preemptive Priority engine (`preemptive_priority`), and the derived metric
quantities of `print_metrics`.

Conventions of the embedding:
* C++ `int` fields become `Int` (no claim exercises overflow).
* `vector<Process>` becomes `List Process`; indexing `procs[i]` is `pget`,
  in-place mutation of one element is `List.set`.
* `queue<int>` becomes `List Nat` with the head at the front; `push` appends
  at the tail.  The `in_queue` vector of `round_robin` is written but never
  read by any branch of the source, so it is not carried in the state.
* `priority_queue<int, vector<int>, cmp>` becomes a `List Nat` popped by
  `pqPopMin`, which removes the element that the C++ heap's `top` yields:
  the minimum under the lexicographic (priority, arrival, pid) key that the
  comparator `cmp` encodes.  Ties (impossible for distinct pids) break by
  position.
* `std::sort` with a strict comparator becomes `List.insertionSort` with the
  matching non-strict relation; for the comparators in the source the result
  is sorted the same way, and for key-distinct inputs it is the identical
  permutation.
* The two `while` simulation loops are embedded with an explicit fuel
  parameter; the exported engines run them with enough fuel, and the
  termination theorems show that the fuel bound is reached, i.e. that adding
  more fuel does not change the result.
-/

set_option maxHeartbeats 1600000

namespace SchedulerSim

/-- The record `struct Process` of `main.cpp`. -/
structure Process where
  pid : Int
  arrival : Int
  burst : Int
  priority : Int
  remaining : Int
  start_time : Int
  completion_time : Int
  waiting_time : Int
  turnaround_time : Int
deriving DecidableEq, Repr

/-- The C++ constructor `Process(id,a,b,p)`: `remaining=b`, `start_time=-1`,
`completion_time=waiting_time=turnaround_time=0`. -/
def mkProcess (id a b p : Int) : Process :=
  ⟨id, a, b, p, b, -1, 0, 0, 0⟩

instance : Inhabited Process := ⟨mkProcess 0 0 0 0⟩

/-- The record `struct GanttEntry` of `main.cpp`; `stop` embeds the field
`end` (a keyword in Lean). -/
structure GanttEntry where
  pid : Int
  start : Int
  stop : Int
deriving DecidableEq, Repr

/-- Vector indexing `procs[i]`. -/
def pget (procs : List Process) (i : Nat) : Process := procs.getD i default

/-- The comparator of `round_robin`'s `sort` (arrival ascending, then pid
ascending), as a non-strict total order. -/
def rrBefore (a b : Process) : Prop :=
  a.arrival < b.arrival ∨ (a.arrival = b.arrival ∧ a.pid ≤ b.pid)

instance : DecidableRel rrBefore := fun a b => by
  unfold rrBefore; exact inferInstance

instance : IsTotal Process rrBefore := ⟨by
  intro a b
  rcases lt_trichotomy a.arrival b.arrival with h | h | h
  · exact Or.inl (Or.inl h)
  · rcases le_total a.pid b.pid with hp | hp
    · exact Or.inl (Or.inr ⟨h, hp⟩)
    · exact Or.inr (Or.inr ⟨h.symm, hp⟩)
  · exact Or.inr (Or.inl h)⟩

instance : IsTrans Process rrBefore := ⟨by
  intro a b c hab hbc
  rcases hab with h1 | ⟨h1, h1'⟩ <;> rcases hbc with h2 | ⟨h2, h2'⟩
  · exact Or.inl (h1.trans h2)
  · exact Or.inl (h2 ▸ h1)
  · exact Or.inl (h1 ▸ h2)
  · exact Or.inr ⟨h1.trans h2, h1'.trans h2'⟩⟩

/-- The comparator of `preemptive_priority`'s `sort` (arrival, then priority,
then pid), as a non-strict total order. -/
def ppsBefore (a b : Process) : Prop :=
  a.arrival < b.arrival ∨
    (a.arrival = b.arrival ∧
      (a.priority < b.priority ∨ (a.priority = b.priority ∧ a.pid ≤ b.pid)))

instance : DecidableRel ppsBefore := fun a b => by
  unfold ppsBefore; exact inferInstance

instance : IsTotal Process ppsBefore := ⟨by
  intro a b
  rcases lt_trichotomy a.arrival b.arrival with h | h | h
  · exact Or.inl (Or.inl h)
  · rcases lt_trichotomy a.priority b.priority with hp | hp | hp
    · exact Or.inl (Or.inr ⟨h, Or.inl hp⟩)
    · rcases le_total a.pid b.pid with hq | hq
      · exact Or.inl (Or.inr ⟨h, Or.inr ⟨hp, hq⟩⟩)
      · exact Or.inr (Or.inr ⟨h.symm, Or.inr ⟨hp.symm, hq⟩⟩)
    · exact Or.inr (Or.inr ⟨h.symm, Or.inl hp⟩)
  · exact Or.inr (Or.inl h)⟩

instance : IsTrans Process ppsBefore := ⟨by
  intro a b c hab hbc
  rcases hab with h1 | ⟨h1, h1'⟩ <;> rcases hbc with h2 | ⟨h2, h2'⟩
  · exact Or.inl (h1.trans h2)
  · exact Or.inl (h2 ▸ h1)
  · exact Or.inl (h1 ▸ h2)
  · refine Or.inr ⟨h1.trans h2, ?_⟩
    rcases h1' with hp1 | ⟨hp1, hq1⟩ <;> rcases h2' with hp2 | ⟨hp2, hq2⟩
    · exact Or.inl (hp1.trans hp2)
    · exact Or.inl (hp2 ▸ hp1)
    · exact Or.inl (hp1 ▸ hp2)
    · exact Or.inr ⟨hp1.trans hp2, hq1.trans hq2⟩⟩

/-- The admission loop
`while(idx < n && procs[idx].arrival <= time){ q.push(idx); idx++; }`,
structurally recursive on `k`, the number of slots left (`n - idx`). -/
def admitLeAux (procs : List Process) (t : Int) : Nat → Nat → List Nat → List Nat × Nat
  | 0, idx, q => (q, idx)
  | k+1, idx, q =>
    if (pget procs idx).arrival ≤ t then
      admitLeAux procs t k (idx+1) (q ++ [idx])
    else (q, idx)

/-- `admitLeAux` entered with the exact slot count, so that `k = 0` coincides
with the loop condition `idx < n` failing. -/
def admitLe (procs : List Process) (t : Int) (idx : Nat) (q : List Nat) : List Nat × Nat :=
  admitLeAux procs t (procs.length - idx) idx q

/-- The admission loop
`while(idx < n && procs[idx].arrival == time){ q.push(idx); idx++; }`
used by `round_robin`'s idle handling and initial setup. -/
def admitEqAux (procs : List Process) (t : Int) : Nat → Nat → List Nat → List Nat × Nat
  | 0, idx, q => (q, idx)
  | k+1, idx, q =>
    if (pget procs idx).arrival = t then
      admitEqAux procs t k (idx+1) (q ++ [idx])
    else (q, idx)

/-- `admitEqAux` entered with the exact slot count. -/
def admitEq (procs : List Process) (t : Int) (idx : Nat) (q : List Nat) : List Nat × Nat :=
  admitEqAux procs t (procs.length - idx) idx q

/-- `cpu_busy` of `print_metrics`: total length of the non-idle (pid ≠ -1)
intervals. -/
def sumExec : List GanttEntry → Int
  | [] => 0
  | g :: r => (if g.pid = -1 then 0 else g.stop - g.start) + sumExec r

/-- Total remaining work over the process vector. -/
def totalRemaining (l : List Process) : Int :=
  (l.map (fun p => p.remaining)).sum

/-- Total work already executed: `Σ (burst - remaining)`. -/
def totalDeficit (l : List Process) : Int :=
  (l.map (fun p => p.burst - p.remaining)).sum

/-- The timeline `l` is contiguous starting at tick `t`: each entry starts
where the previous one stopped. -/
def chainFrom : Int → List GanttEntry → Prop
  | _, [] => True
  | t, g :: r => g.start = t ∧ chainFrom g.stop r

instance : ∀ t l, Decidable (chainFrom t l)
  | _, [] => .isTrue trivial
  | t, g :: r =>
    have : Decidable (chainFrom g.stop r) := instDecidableChainFrom g.stop r
    instDecidableAnd

/-- End tick of a timeline that starts at `t`: the last entry's `stop`, or
`t` itself when the timeline is empty. -/
def ganttEnd : Int → List GanttEntry → Int
  | t, [] => t
  | _, g :: r => ganttEnd g.stop r

/-- State of the `round_robin` simulation loop. -/
structure RRState where
  procs : List Process
  q : List Nat
  time : Int
  completed : Nat
  idx : Nat
  gantt : List GanttEntry
deriving DecidableEq, Repr

/-- `if(p.start_time == -1) p.start_time = time;` — record the first
dispatch tick if unset (shared by both engines). -/
def markStarted (p : Process) (t : Int) : Process :=
  if p.start_time = -1 then { p with start_time := t } else p

/-- Lines 82-97 of `main.cpp` on the already sorted vector: push the
processes with `arrival == 0` (computing `idx_next_arrival`); if none
arrived at tick 0 and processes exist, emit a leading idle interval up to
the first arrival and admit that tick's arrivals. -/
def rrInitCore (procs : List Process) : RRState :=
  let init := admitEq procs 0 0 []
  if init.1 = [] ∧ init.2 < procs.length then
    let next_t := (pget procs init.2).arrival
    let adm := admitEq procs next_t init.2 []
    ⟨procs, adm.1, next_t, 0, adm.2, [⟨-1, 0, next_t⟩]⟩
  else
    ⟨procs, init.1, 0, 0, init.2, []⟩

/-- Lines 69-97 of `main.cpp`: sort by (arrival, pid), then set up the
initial queue, clock and (possibly) leading idle interval. -/
def rrInit (procs0 : List Process) : RRState :=
  rrInitCore (List.insertionSort rrBefore procs0)

/-- Lines 100-113 of `main.cpp`: the queue is empty but processes remain;
emit an idle interval up to the next arrival (when strictly in the future)
and admit the arrivals of the new current tick. -/
def rrIdle (s : RRState) : RRState :=
  let next_t := (pget s.procs s.idx).arrival
  let s1 := if s.time < next_t then
      { s with gantt := s.gantt ++ [⟨-1, s.time, next_t⟩], time := next_t }
    else s
  let adm := admitEq s1.procs s1.time s1.idx s1.q
  { s1 with q := adm.1, idx := adm.2 }

/-- Lines 115-134 of `main.cpp`: pop the queue head, record its first
dispatch, run it `min(quantum, remaining)` ticks, emit the execution
interval, admit the arrivals of the slice, then either re-enqueue the
process at the tail or finalize it. -/
def rrDispatchCore (quantum : Int) (s : RRState) (i : Nat) (rest : List Nat) : RRState :=
  let p1 := markStarted (pget s.procs i) s.time
  let exec := min quantum p1.remaining
  let newTime := s.time + exec
  let gantt := s.gantt ++ [⟨p1.pid, s.time, newTime⟩]
  let p2 := { p1 with remaining := p1.remaining - exec }
  let adm := admitLe s.procs newTime s.idx rest
  if 0 < p2.remaining then
    { procs := s.procs.set i p2, q := adm.1 ++ [i], time := newTime,
      completed := s.completed, idx := adm.2, gantt := gantt }
  else
    let p3 := { p2 with
                  completion_time := newTime
                  turnaround_time := newTime - p2.arrival
                  waiting_time := newTime - p2.arrival - p2.burst }
    { procs := s.procs.set i p3, q := adm.1, time := newTime,
      completed := s.completed + 1, idx := adm.2, gantt := gantt }

/-- Pop the queue head and run `rrDispatchCore` on it. -/
def rrDispatch (quantum : Int) (s : RRState) : RRState :=
  match s.q with
  | [] => s
  | i :: rest => rrDispatchCore quantum s i rest

/-- The `while(completed < n)` loop of `round_robin` (lines 99-135), with
explicit fuel. -/
def rrLoop (quantum : Int) : Nat → RRState → RRState
  | 0, s => s
  | fuel+1, s =>
    if s.completed < s.procs.length then
      match s.q with
      | [] =>
        if s.idx < s.procs.length then rrLoop quantum fuel (rrIdle s)
        else s
      | _ :: _ => rrLoop quantum fuel (rrDispatch quantum s)
    else s

/-- Loop variant of `round_robin`: total remaining work plus the number of
processes not yet admitted.  Every loop iteration strictly decreases it. -/
def rrMeasure (s : RRState) : Nat :=
  (totalRemaining s.procs).toNat + (s.procs.length - s.idx)

/-- `round_robin(procs, quantum)` of `main.cpp` (its simulation part: the
returned state carries the final gantt chart and finalized processes). -/
def round_robin (procs0 : List Process) (quantum : Int) : RRState :=
  let s := rrInit procs0
  rrLoop quantum (rrMeasure s + 1) s

/-- The lexicographic (priority, arrival, pid) key that the heap comparator
`cmp` of `preemptive_priority` orders by (most urgent = smallest). -/
def pqKey (procs : List Process) (i : Nat) : Int × Int × Int :=
  ((pget procs i).priority, (pget procs i).arrival, (pget procs i).pid)

/-- Non-strict lexicographic comparison of heap keys. -/
def keyLe (a b : Int × Int × Int) : Prop :=
  a.1 < b.1 ∨ (a.1 = b.1 ∧
    (a.2.1 < b.2.1 ∨ (a.2.1 = b.2.1 ∧ a.2.2 ≤ b.2.2)))

instance : DecidableRel keyLe := fun a b => by
  unfold keyLe; exact inferInstance

/-- `pq.top(); pq.pop()` of the C++ heap: remove the element with the
minimal (priority, arrival, pid) key; `none` iff the heap is empty. -/
def pqPopMin (procs : List Process) : List Nat → Option (Nat × List Nat)
  | [] => none
  | a :: rest =>
    match pqPopMin procs rest with
    | none => some (a, [])
    | some (b, rest') =>
      if keyLe (pqKey procs a) (pqKey procs b) then some (a, rest)
      else some (b, a :: rest')

/-- State of the `preemptive_priority` simulation loop. -/
structure PPSState where
  procs : List Process
  pq : List Nat
  time : Int
  completed : Nat
  idx : Nat
  gantt : List GanttEntry
deriving DecidableEq, Repr

/-- Lines 173-177 of `main.cpp` on the already sorted vector: if the first
arrival is after tick 0, emit a leading idle interval and advance. -/
def ppsInitCore (procs : List Process) : PPSState :=
  if 0 < procs.length ∧ 0 < (pget procs 0).arrival then
    ⟨procs, [], (pget procs 0).arrival, 0, 0, [⟨-1, 0, (pget procs 0).arrival⟩]⟩
  else
    ⟨procs, [], 0, 0, 0, []⟩

/-- Lines 154-177 of `main.cpp`: sort by (arrival, priority, pid), then set
up the clock and (possibly) leading idle interval. -/
def ppsInit (procs0 : List Process) : PPSState :=
  ppsInitCore (List.insertionSort ppsBefore procs0)

/-- Lines 196-217 of `main.cpp`: run the popped process `cur` for exactly
1 tick, emit the interval, admit the new tick's arrivals, then push `cur`
back or finalize it. -/
def ppsDispatch (cur : Nat) (rest : List Nat) (s : PPSState) : PPSState :=
  let p1 := markStarted (pget s.procs cur) s.time
  let run_for : Int := 1
  let newTime := s.time + run_for
  let gantt := s.gantt ++ [⟨p1.pid, s.time, newTime⟩]
  let p2 := { p1 with remaining := p1.remaining - run_for }
  let adm := admitLe s.procs newTime s.idx rest
  if 0 < p2.remaining then
    { procs := s.procs.set cur p2, pq := adm.1 ++ [cur], time := newTime,
      completed := s.completed, idx := adm.2, gantt := gantt }
  else
    let p3 := { p2 with
                  completion_time := newTime
                  turnaround_time := newTime - p2.arrival
                  waiting_time := newTime - p2.arrival - p2.burst }
    { procs := s.procs.set cur p3, pq := adm.1, time := newTime,
      completed := s.completed + 1, idx := adm.2, gantt := gantt }

/-- The `while(completed < n)` loop of `preemptive_priority` (lines
179-218), with explicit fuel: admit all arrivals up to the current tick;
if the heap is empty either idle forward to the next arrival or stop;
otherwise pop the most urgent process and dispatch it for one tick. -/
def ppsLoop : Nat → PPSState → PPSState
  | 0, s => s
  | fuel+1, s =>
    if s.completed < s.procs.length then
      let adm := admitLe s.procs s.time s.idx s.pq
      let s1 : PPSState := { s with pq := adm.1, idx := adm.2 }
      match pqPopMin s1.procs s1.pq with
      | none =>
        if s1.idx < s1.procs.length then
          let next_t := (pget s1.procs s1.idx).arrival
          let s2 := if s1.time < next_t then
              { s1 with gantt := s1.gantt ++ [⟨-1, s1.time, next_t⟩], time := next_t }
            else s1
          ppsLoop fuel s2
        else s1
      | some (cur, rest) => ppsLoop fuel (ppsDispatch cur rest s1)
    else s

/-- Loop variant of `preemptive_priority`: every iteration of `ppsLoop`
strictly decreases it (an idle iteration advances only the clock, the
following one then admits, hence the factor 2 and the pending-arrival bit). -/
def ppsMeasure (s : PPSState) : Nat :=
  2 * ((totalRemaining s.procs).toNat + (s.procs.length - s.idx)) +
    (if s.idx < s.procs.length ∧ (pget s.procs s.idx).arrival ≤ s.time then 0 else 1)

/-- `preemptive_priority(procs)` of `main.cpp` (its simulation part). -/
def preemptive_priority (procs0 : List Process) : PPSState :=
  let s := ppsInit procs0
  ppsLoop (ppsMeasure s + 1) s

/-- The makespan argument both engines pass to `print_metrics`:
`gantt.empty() ? 0 : gantt.back().end`. -/
def total_time_of (gantt : List GanttEntry) : Int :=
  match gantt.getLast? with
  | none => 0
  | some g => g.stop

/-- IEEE double division `a / b` of integer-valued quantities, over exact
rationals: the rounded result is abstracted to the exact quotient when
`b ≠ 0`; when `b = 0` the C++ expression produces a non-finite double
(`inf` or `NaN`), modeled as `none`.  There is no branch on `b` in
`print_metrics`. -/
def fdiv (a b : ℚ) : Option ℚ := if b = 0 then none else some (a / b)

/-- `cpu_util` of `print_metrics`: `100.0 * cpu_busy / (double) total_time`. -/
def cpu_util (gantt : List GanttEntry) (total_time : Int) : Option ℚ :=
  fdiv (100 * (sumExec gantt : ℚ)) (total_time : ℚ)

/-- `throughput` of `print_metrics`: `(double) n / total_time`. -/
def throughput (n : Nat) (total_time : Int) : Option ℚ :=
  fdiv (n : ℚ) (total_time : ℚ)

/-- `load_sample()` of `main.cpp`. -/
def load_sample : List Process :=
  [mkProcess 1 0 5 2, mkProcess 2 1 3 1, mkProcess 3 2 8 4, mkProcess 4 3 6 3]

/-- A process list is a valid input in the sense of the spec: non-empty,
pairwise-distinct identities, non-negative arrivals, positive bursts,
positive identities, and fresh simulation state (as produced by the C++
constructor). -/
def ValidProcs (ps : List Process) : Prop :=
  ps ≠ [] ∧ (ps.map Process.pid).Nodup ∧
    ∀ p ∈ ps, 0 < p.pid ∧ 0 ≤ p.arrival ∧ 0 < p.burst ∧
      p.remaining = p.burst ∧ p.start_time = -1

instance (ps : List Process) : Decidable (ValidProcs ps) := by
  unfold ValidProcs; exact inferInstance

instance : Inhabited GanttEntry := ⟨⟨0, 0, 0⟩⟩

/-! ## Basic lemmas about the embedding's containers -/

theorem pget_cons_zero (a : Process) (l : List Process) : pget (a :: l) 0 = a := rfl

theorem pget_cons_succ (a : Process) (l : List Process) (j : Nat) :
    pget (a :: l) (j+1) = pget l j := rfl

theorem pget_set_self (l : List Process) (i : Nat) (v : Process) (h : i < l.length) :
    pget (l.set i v) i = v := by
  induction l generalizing i with
  | nil => simp at h
  | cons a l ih =>
    cases i with
    | zero => rfl
    | succ j => exact ih j (by simpa using h)

theorem pget_set_ne (l : List Process) (i j : Nat) (v : Process) (h : i ≠ j) :
    pget (l.set i v) j = pget l j := by
  induction l generalizing i j with
  | nil => rfl
  | cons a l ih =>
    cases i with
    | zero =>
      cases j with
      | zero => exact absurd rfl h
      | succ j' => rfl
    | succ i' =>
      cases j with
      | zero => rfl
      | succ j' => exact ih i' j' (by omega)

theorem pget_mem (l : List Process) (i : Nat) (h : i < l.length) : pget l i ∈ l := by
  unfold pget
  rw [List.getD_eq_getElem?_getD, List.getElem?_eq_getElem h]
  exact List.getElem_mem h

theorem sum_map_set (f : Process → Int) (l : List Process) (i : Nat) (v : Process)
    (h : i < l.length) :
    ((l.set i v).map f).sum = (l.map f).sum + f v - f (pget l i) := by
  induction l generalizing i with
  | nil => simp at h
  | cons a l ih =>
    cases i with
    | zero => simp [pget]; ring
    | succ j =>
      have := ih j (by simpa using h)
      simp only [List.set, List.map, List.sum_cons]
      rw [this]
      simp [pget]; ring

theorem countP_set_add (p : Process → Bool) (l : List Process) (i : Nat) (v : Process)
    (h : i < l.length) :
    (l.set i v).countP p + (if p (pget l i) then 1 else 0)
      = l.countP p + (if p v then 1 else 0) := by
  induction l generalizing i with
  | nil => simp at h
  | cons a l ih =>
    cases i with
    | zero =>
      simp only [List.set, List.countP_cons, pget, List.getD]
      by_cases hv : p v <;> by_cases ha : p a <;> simp [hv, ha] <;> omega
    | succ j =>
      have := ih j (by simpa using h)
      simp only [List.set, List.countP_cons, pget, List.getD] at this ⊢
      by_cases ha : p a <;> simp [ha] at this ⊢ <;> omega

theorem sumExec_append (l m : List GanttEntry) :
    sumExec (l ++ m) = sumExec l + sumExec m := by
  induction l with
  | nil => simp [sumExec]
  | cons g r ih => simp [sumExec, ih]; ring

theorem ganttEnd_append (t : Int) (l m : List GanttEntry) :
    ganttEnd t (l ++ m) = ganttEnd (ganttEnd t l) m := by
  induction l generalizing t with
  | nil => rfl
  | cons g r ih => simp [ganttEnd, ih]

theorem chainFrom_append (t : Int) (l m : List GanttEntry) :
    chainFrom t (l ++ m) ↔ chainFrom t l ∧ chainFrom (ganttEnd t l) m := by
  induction l generalizing t with
  | nil => simp [chainFrom, ganttEnd]
  | cons g r ih => simp [chainFrom, ganttEnd, ih, and_assoc]

theorem chainFrom_head (t : Int) (l : List GanttEntry) (h : chainFrom t l) (hne : l ≠ []) :
    (l.headD default).start = t := by
  cases l with
  | nil => exact absurd rfl hne
  | cons g r => exact h.1

theorem chainFrom_adjacent (t : Int) (l : List GanttEntry) (h : chainFrom t l) :
    ∀ i, i + 1 < l.length → (l.getD i default).stop = (l.getD (i+1) default).start := by
  induction l generalizing t with
  | nil => intro i hi; simp at hi
  | cons g r ih =>
    intro i hi
    cases i with
    | zero =>
      cases r with
      | nil => simp at hi
      | cons g' r' => simpa using (h.2.1).symm
    | succ j => exact ih g.stop h.2 j (by simpa using hi)

theorem totalRemaining_set (l : List Process) (i : Nat) (v : Process) (h : i < l.length) :
    totalRemaining (l.set i v)
      = totalRemaining l + v.remaining - (pget l i).remaining :=
  sum_map_set (fun p => p.remaining) l i v h

theorem totalDeficit_set (l : List Process) (i : Nat) (v : Process) (h : i < l.length) :
    totalDeficit (l.set i v)
      = totalDeficit l + (v.burst - v.remaining)
        - ((pget l i).burst - (pget l i).remaining) :=
  sum_map_set (fun p => p.burst - p.remaining) l i v h

theorem pget_remaining_le_totalRemaining (l : List Process) (i : Nat) (h : i < l.length)
    (hn : ∀ p ∈ l, 0 ≤ p.remaining) :
    (pget l i).remaining ≤ totalRemaining l := by
  induction l generalizing i with
  | nil => simp at h
  | cons a l ih =>
    cases i with
    | zero =>
      have : 0 ≤ (l.map (fun p => p.remaining)).sum := by
        apply List.sum_nonneg
        intro x hx
        obtain ⟨p, hp, rfl⟩ := List.mem_map.mp hx
        exact hn p (List.mem_cons_of_mem a hp)
      simp only [pget_cons_zero, totalRemaining, List.map, List.sum_cons]
      omega
    | succ j =>
      have hrec := ih j (by simpa using h) (fun p hp => hn p (List.mem_cons_of_mem a hp))
      have ha := hn a (List.mem_cons_self a l)
      simp only [pget_cons_succ, totalRemaining, List.map, List.sum_cons] at hrec ⊢
      omega

theorem totalRemaining_nonneg (l : List Process) (hn : ∀ p ∈ l, 0 ≤ p.remaining) :
    0 ≤ totalRemaining l := by
  apply List.sum_nonneg
  intro x hx
  obtain ⟨p, hp, rfl⟩ := List.mem_map.mp hx
  exact hn p hp

/-! ## The admission loops -/

theorem admitLeAux_spec (procs : List Process) (t : Int) :
    ∀ (k idx : Nat) (q : List Nat),
      idx ≤ (admitLeAux procs t k idx q).2 ∧
      (admitLeAux procs t k idx q).2 ≤ idx + k ∧
      (admitLeAux procs t k idx q).1
        = q ++ List.range' idx ((admitLeAux procs t k idx q).2 - idx) ∧
      (∀ j, idx ≤ j → j < (admitLeAux procs t k idx q).2 → (pget procs j).arrival ≤ t) ∧
      ((admitLeAux procs t k idx q).2 < idx + k →
        t < (pget procs (admitLeAux procs t k idx q).2).arrival) := by
  intro k
  induction k with
  | zero =>
    intro idx q
    simp only [admitLeAux]
    exact ⟨le_refl _, by omega, by simp, fun j h1 h2 => absurd h2 (by omega),
      fun h => absurd h (by omega)⟩
  | succ k ih =>
    intro idx q
    by_cases hA : (pget procs idx).arrival ≤ t
    · have hstep : admitLeAux procs t (k+1) idx q
          = admitLeAux procs t k (idx+1) (q ++ [idx]) := by
        simp [admitLeAux, hA]
      obtain ⟨h1, h2, h3, h4, h5⟩ := ih (idx+1) (q ++ [idx])
      rw [hstep]
      refine ⟨by omega, by omega, ?_, ?_, ?_⟩
      · rw [h3]
        have hm : (admitLeAux procs t k (idx+1) (q ++ [idx])).2 - idx
            = ((admitLeAux procs t k (idx+1) (q ++ [idx])).2 - (idx+1)) + 1 := by omega
        rw [hm, List.range'_succ, List.append_assoc]
        rfl
      · intro j hj1 hj2
        rcases Nat.eq_or_lt_of_le hj1 with rfl | hlt
        · exact hA
        · exact h4 j hlt hj2
      · intro hlt
        exact h5 (by omega)
    · have hstep : admitLeAux procs t (k+1) idx q = (q, idx) := by
        simp [admitLeAux, hA]
      rw [hstep]
      refine ⟨le_refl _, by omega, by simp, ?_, ?_⟩
      · intro j hj1 hj2; omega
      · intro _; exact lt_of_not_le hA

theorem admitEqAux_spec (procs : List Process) (t : Int) :
    ∀ (k idx : Nat) (q : List Nat),
      idx ≤ (admitEqAux procs t k idx q).2 ∧
      (admitEqAux procs t k idx q).2 ≤ idx + k ∧
      (admitEqAux procs t k idx q).1
        = q ++ List.range' idx ((admitEqAux procs t k idx q).2 - idx) ∧
      (∀ j, idx ≤ j → j < (admitEqAux procs t k idx q).2 → (pget procs j).arrival = t) ∧
      ((admitEqAux procs t k idx q).2 < idx + k →
        (pget procs (admitEqAux procs t k idx q).2).arrival ≠ t) := by
  intro k
  induction k with
  | zero =>
    intro idx q
    simp only [admitEqAux]
    exact ⟨le_refl _, by omega, by simp, fun j h1 h2 => absurd h2 (by omega),
      fun h => absurd h (by omega)⟩
  | succ k ih =>
    intro idx q
    by_cases hA : (pget procs idx).arrival = t
    · have hstep : admitEqAux procs t (k+1) idx q
          = admitEqAux procs t k (idx+1) (q ++ [idx]) := by
        simp [admitEqAux, hA]
      obtain ⟨h1, h2, h3, h4, h5⟩ := ih (idx+1) (q ++ [idx])
      rw [hstep]
      refine ⟨by omega, by omega, ?_, ?_, ?_⟩
      · rw [h3]
        have hm : (admitEqAux procs t k (idx+1) (q ++ [idx])).2 - idx
            = ((admitEqAux procs t k (idx+1) (q ++ [idx])).2 - (idx+1)) + 1 := by omega
        rw [hm, List.range'_succ, List.append_assoc]
        rfl
      · intro j hj1 hj2
        rcases Nat.eq_or_lt_of_le hj1 with rfl | hlt
        · exact hA
        · exact h4 j hlt hj2
      · intro hlt
        exact h5 (by omega)
    · have hstep : admitEqAux procs t (k+1) idx q = (q, idx) := by
        simp [admitEqAux, hA]
      rw [hstep]
      refine ⟨le_refl _, by omega, by simp, ?_, ?_⟩
      · intro j hj1 hj2; omega
      · intro _; exact hA

theorem admitLe_spec (procs : List Process) (t : Int) (idx : Nat) (q : List Nat)
    (h : idx ≤ procs.length) :
    idx ≤ (admitLe procs t idx q).2 ∧
    (admitLe procs t idx q).2 ≤ procs.length ∧
    (admitLe procs t idx q).1
      = q ++ List.range' idx ((admitLe procs t idx q).2 - idx) ∧
    (∀ j, idx ≤ j → j < (admitLe procs t idx q).2 → (pget procs j).arrival ≤ t) ∧
    ((admitLe procs t idx q).2 < procs.length →
      t < (pget procs (admitLe procs t idx q).2).arrival) := by
  have := admitLeAux_spec procs t (procs.length - idx) idx q
  unfold admitLe
  obtain ⟨h1, h2, h3, h4, h5⟩ := this
  exact ⟨h1, by omega, h3, h4, fun hlt => h5 (by omega)⟩

theorem admitEq_spec (procs : List Process) (t : Int) (idx : Nat) (q : List Nat)
    (h : idx ≤ procs.length) :
    idx ≤ (admitEq procs t idx q).2 ∧
    (admitEq procs t idx q).2 ≤ procs.length ∧
    (admitEq procs t idx q).1
      = q ++ List.range' idx ((admitEq procs t idx q).2 - idx) ∧
    (∀ j, idx ≤ j → j < (admitEq procs t idx q).2 → (pget procs j).arrival = t) ∧
    ((admitEq procs t idx q).2 < procs.length →
      (pget procs (admitEq procs t idx q).2).arrival ≠ t) := by
  have := admitEqAux_spec procs t (procs.length - idx) idx q
  unfold admitEq
  obtain ⟨h1, h2, h3, h4, h5⟩ := this
  exact ⟨h1, by omega, h3, h4, fun hlt => h5 (by omega)⟩

theorem pget_eq_getElem (l : List Process) (j : Nat) (h : j < l.length) :
    pget l j = l[j] := by
  unfold pget
  rw [List.getD_eq_getElem?_getD, List.getElem?_eq_getElem h]
  rfl

theorem sorted_arrival_rr (l : List Process) (h : List.Sorted rrBefore l) :
    ∀ j k, j ≤ k → k < l.length → (pget l j).arrival ≤ (pget l k).arrival := by
  intro j k hjk hk
  rcases Nat.eq_or_lt_of_le hjk with rfl | hlt
  · exact le_refl _
  · have hj : j < l.length := lt_trans hlt hk
    rw [pget_eq_getElem l j hj, pget_eq_getElem l k hk]
    have := List.Sorted.rel_get_of_lt h (a := ⟨j, hj⟩) (b := ⟨k, hk⟩) hlt
    rcases this with h' | ⟨h', _⟩
    · exact le_of_lt h'
    · exact le_of_eq h'

theorem sorted_arrival_pps (l : List Process) (h : List.Sorted ppsBefore l) :
    ∀ j k, j ≤ k → k < l.length → (pget l j).arrival ≤ (pget l k).arrival := by
  intro j k hjk hk
  rcases Nat.eq_or_lt_of_le hjk with rfl | hlt
  · exact le_refl _
  · have hj : j < l.length := lt_trans hlt hk
    rw [pget_eq_getElem l j hj, pget_eq_getElem l k hk]
    have := List.Sorted.rel_get_of_lt h (a := ⟨j, hj⟩) (b := ⟨k, hk⟩) hlt
    rcases this with h' | ⟨h', _⟩
    · exact le_of_lt h'
    · exact le_of_eq h'

theorem totalDeficit_eq_zero (l : List Process)
    (h : ∀ p ∈ l, p.remaining = p.burst) : totalDeficit l = 0 := by
  apply List.sum_eq_zero
  intro x hx
  obtain ⟨p, hp, rfl⟩ := List.mem_map.mp hx
  rw [h p hp]
  ring

/-- The per-index immutable input fields agree between two process vectors. -/
def sameStatic (l1 l2 : List Process) : Prop :=
  l1.length = l2.length ∧ ∀ j, j < l1.length →
    (pget l2 j).pid = (pget l1 j).pid ∧ (pget l2 j).arrival = (pget l1 j).arrival ∧
    (pget l2 j).burst = (pget l1 j).burst ∧ (pget l2 j).priority = (pget l1 j).priority

theorem sameStatic_refl (l : List Process) : sameStatic l l :=
  ⟨rfl, fun _ _ => ⟨rfl, rfl, rfl, rfl⟩⟩

theorem sameStatic_trans {l1 l2 l3 : List Process}
    (h12 : sameStatic l1 l2) (h23 : sameStatic l2 l3) : sameStatic l1 l3 := by
  obtain ⟨hl12, h12⟩ := h12
  obtain ⟨hl23, h23⟩ := h23
  refine ⟨hl12.trans hl23, fun j hj => ?_⟩
  obtain ⟨a2, b2, c2, d2⟩ := h12 j hj
  obtain ⟨a3, b3, c3, d3⟩ := h23 j (hl12 ▸ hj)
  exact ⟨a3.trans a2, b3.trans b2, c3.trans c2, d3.trans d2⟩

/-! ## The Round Robin loop invariant -/

/-- Inductive invariant of the `round_robin` simulation loop, established by
`rrInit` on valid input and preserved by `rrIdle` and `rrDispatch`. -/
structure RRInv (s : RRState) : Prop where
  sorted_arr : ∀ j k, j ≤ k → k < s.procs.length →
    (pget s.procs j).arrival ≤ (pget s.procs k).arrival
  arr_nonneg : ∀ j, j < s.procs.length → 0 ≤ (pget s.procs j).arrival
  burst_pos : ∀ j, j < s.procs.length → 0 < (pget s.procs j).burst
  pid_pos : ∀ j, j < s.procs.length → 0 < (pget s.procs j).pid
  time_nonneg : 0 ≤ s.time
  idx_le : s.idx ≤ s.procs.length
  rem_nonneg : ∀ j, j < s.procs.length → 0 ≤ (pget s.procs j).remaining
  rem_le : ∀ j, j < s.procs.length →
    (pget s.procs j).remaining ≤ (pget s.procs j).burst
  q_nodup : s.q.Nodup
  q_mem : ∀ i ∈ s.q, i < s.idx ∧ 0 < (pget s.procs i).remaining ∧
    (pget s.procs i).arrival ≤ s.time
  unadmitted : ∀ j, s.idx ≤ j → j < s.procs.length →
    (pget s.procs j).remaining = (pget s.procs j).burst ∧
    s.time < (pget s.procs j).arrival
  partitioned : ∀ j, j < s.idx → j ∈ s.q ∨ (pget s.procs j).remaining = 0
  executed : ∀ j, j < s.idx →
    (pget s.procs j).burst - (pget s.procs j).remaining
      ≤ s.time - (pget s.procs j).arrival
  completed_eq : s.completed = s.procs.countP (fun p => p.remaining == 0)
  gantt_chain : chainFrom 0 s.gantt
  gantt_end : ganttEnd 0 s.gantt = s.time
  gantt_pos : ∀ g ∈ s.gantt, g.start < g.stop
  gantt_pid : ∀ g ∈ s.gantt, g.pid = -1 ∨ 0 < g.pid
  busy_eq : sumExec s.gantt = totalDeficit s.procs
  finalized : ∀ j, j < s.procs.length → (pget s.procs j).remaining = 0 →
    (pget s.procs j).arrival + (pget s.procs j).burst
        ≤ (pget s.procs j).completion_time ∧
    (pget s.procs j).turnaround_time
        = (pget s.procs j).completion_time - (pget s.procs j).arrival ∧
    (pget s.procs j).waiting_time
        = (pget s.procs j).turnaround_time - (pget s.procs j).burst

theorem markStarted_pid (p : Process) (t : Int) : (markStarted p t).pid = p.pid := by
  unfold markStarted; split <;> rfl

theorem markStarted_arrival (p : Process) (t : Int) :
    (markStarted p t).arrival = p.arrival := by
  unfold markStarted; split <;> rfl

theorem markStarted_burst (p : Process) (t : Int) :
    (markStarted p t).burst = p.burst := by
  unfold markStarted; split <;> rfl

theorem markStarted_priority (p : Process) (t : Int) :
    (markStarted p t).priority = p.priority := by
  unfold markStarted; split <;> rfl

theorem markStarted_remaining (p : Process) (t : Int) :
    (markStarted p t).remaining = p.remaining := by
  unfold markStarted; split <;> rfl

theorem markStarted_completion (p : Process) (t : Int) :
    (markStarted p t).completion_time = p.completion_time := by
  unfold markStarted; split <;> rfl

theorem markStarted_waiting (p : Process) (t : Int) :
    (markStarted p t).waiting_time = p.waiting_time := by
  unfold markStarted; split <;> rfl

theorem markStarted_turnaround (p : Process) (t : Int) :
    (markStarted p t).turnaround_time = p.turnaround_time := by
  unfold markStarted; split <;> rfl

/-- Facts about a sorted process vector that hold for every valid input,
used to establish and propagate the loop invariants. -/
structure SortedValid (procs : List Process) : Prop where
  sorted_arr : ∀ j k, j ≤ k → k < procs.length →
    (pget procs j).arrival ≤ (pget procs k).arrival
  props : ∀ j, j < procs.length →
    0 < (pget procs j).pid ∧ 0 ≤ (pget procs j).arrival ∧
    0 < (pget procs j).burst ∧
    (pget procs j).remaining = (pget procs j).burst ∧
    (pget procs j).start_time = -1
  len_pos : 0 < procs.length

theorem sortedValid_rr (ps : List Process) (hv : ValidProcs ps) :
    SortedValid (List.insertionSort rrBefore ps) := by
  obtain ⟨hne, _, hprops⟩ := hv
  have hperm := List.perm_insertionSort rrBefore ps
  refine ⟨sorted_arrival_rr _ (List.sorted_insertionSort rrBefore ps), ?_, ?_⟩
  · intro j hj
    exact hprops _ (hperm.subset (pget_mem _ j hj))
  · rw [hperm.length_eq]
    cases ps with
    | nil => exact absurd rfl hne
    | cons a l => simp

theorem sortedValid_pps (ps : List Process) (hv : ValidProcs ps) :
    SortedValid (List.insertionSort ppsBefore ps) := by
  obtain ⟨hne, _, hprops⟩ := hv
  have hperm := List.perm_insertionSort ppsBefore ps
  refine ⟨sorted_arrival_pps _ (List.sorted_insertionSort ppsBefore ps), ?_, ?_⟩
  · intro j hj
    exact hprops _ (hperm.subset (pget_mem _ j hj))
  · rw [hperm.length_eq]
    cases ps with
    | nil => exact absurd rfl hne
    | cons a l => simp

theorem countP_rem_zero (procs : List Process)
    (h : ∀ j, j < procs.length →
      0 < (pget procs j).burst ∧
      (pget procs j).remaining = (pget procs j).burst) :
    procs.countP (fun p => p.remaining == 0) = 0 := by
  rw [List.countP_eq_zero]
  intro a ha
  obtain ⟨j, hj, rfl⟩ := List.mem_iff_getElem.mp ha
  have := h j hj
  rw [← pget_eq_getElem procs j hj] at *
  simp only [beq_iff_eq]
  omega

theorem rrInitCore_inv (procs : List Process) (hs : SortedValid procs) :
    RRInv (rrInitCore procs) := by
  obtain ⟨hsort, hprops, hlen⟩ := hs
  have hcount := countP_rem_zero procs (fun j hj => ⟨(hprops j hj).2.2.1, (hprops j hj).2.2.2.1⟩)
  have hdef : totalDeficit procs = 0 := by
    apply totalDeficit_eq_zero
    intro p hp
    obtain ⟨j, hj, rfl⟩ := List.mem_iff_getElem.mp hp
    rw [← pget_eq_getElem procs j hj]
    exact (hprops j hj).2.2.2.1
  have A0 := admitEq_spec procs 0 0 [] (Nat.zero_le _)
  obtain ⟨A01, A02, A03, A04, A05⟩ := A0
  unfold rrInitCore
  by_cases hcond : (admitEq procs 0 0 []).1 = [] ∧ (admitEq procs 0 0 []).2 < procs.length
  · rw [if_pos hcond]
    obtain ⟨hq0, hilen⟩ := hcond
    have hi0 : (admitEq procs 0 0 []).2 = 0 := by
      rw [hq0] at A03
      have : List.range' 0 ((admitEq procs 0 0 []).2 - 0) = [] := A03.symm
      simp only [List.range'_eq_nil] at this
      omega
    rw [hi0]
    have harr0 : 0 < (pget procs 0).arrival := by
      have hne0 := A05 (hi0 ▸ hilen)
      rw [hi0] at hne0
      have := (hprops 0 hlen).2.1
      omega
    have A := admitEq_spec procs ((pget procs 0).arrival) 0 [] (Nat.zero_le _)
    obtain ⟨A1, A2, A3, A4, A5⟩ := A
    -- the admitted window is exactly the set of processes arriving at the new tick
    refine ⟨hsort, fun j hj => (hprops j hj).2.1, fun j hj => (hprops j hj).2.2.1,
      fun j hj => (hprops j hj).1, le_of_lt harr0, A2,
      ?_, ?_, ?_, ?_, ?_, ?_, ?_, ?_, ?_, ?_, ?_, ?_, ?_, ?_⟩
    · dsimp only
      intro j hj
      have := (hprops j hj).2.2.2.1
      have := (hprops j hj).2.2.1
      omega
    · dsimp only
      intro j hj
      have := (hprops j hj).2.2.2.1
      omega
    · dsimp only
      rw [A3]
      simp [List.nodup_range']
    · dsimp only
      intro i hi
      rw [A3] at hi
      simp only [List.nil_append, List.mem_range'_1] at hi
      have hilt : i < procs.length := by omega
      have := (hprops i hilt).2.2.2.1
      have := (hprops i hilt).2.2.1
      have harr := A4 i (by omega) (by omega)
      exact ⟨by omega, by omega, le_of_eq harr⟩
    · dsimp only
      intro j hji hjlen
      have hrem := (hprops j hjlen).2.2.2.1
      refine ⟨hrem, ?_⟩
      have hA2lt : (admitEq procs ((pget procs 0).arrival) 0 []).2 < procs.length := by omega
      have hstop := A5 hA2lt
      have hmono := hsort 0 ((admitEq procs ((pget procs 0).arrival) 0 []).2) (Nat.zero_le _) hA2lt
      have hmono2 := hsort ((admitEq procs ((pget procs 0).arrival) 0 []).2) j hji hjlen
      omega
    · dsimp only
      intro j hj
      rw [A3]
      simp only [List.nil_append, List.mem_range'_1]
      exact Or.inl ⟨Nat.zero_le _, by omega⟩
    · dsimp only
      intro j hj
      have hjlen : j < procs.length := by omega
      have harr := A4 j (Nat.zero_le _) hj
      have := (hprops j hjlen).2.2.2.1
      omega
    · exact hcount.symm
    · exact ⟨rfl, trivial⟩
    · rfl
    · dsimp only
      intro g hg
      simp only [List.mem_singleton] at hg
      subst hg
      exact harr0
    · dsimp only
      intro g hg
      simp only [List.mem_singleton] at hg
      subst hg
      exact Or.inl rfl
    · dsimp only
      simp [sumExec, hdef]
    · dsimp only
      intro j hjlen hrem
      have := (hprops j hjlen).2.2.2.1
      have := (hprops j hjlen).2.2.1
      omega
  · rw [if_neg hcond]
    refine ⟨hsort, fun j hj => (hprops j hj).2.1, fun j hj => (hprops j hj).2.2.1,
      fun j hj => (hprops j hj).1, le_refl 0, A02,
      ?_, ?_, ?_, ?_, ?_, ?_, ?_, ?_, ?_, ?_, ?_, ?_, ?_, ?_⟩
    · dsimp only
      intro j hj
      have := (hprops j hj).2.2.2.1
      have := (hprops j hj).2.2.1
      omega
    · dsimp only
      intro j hj
      have := (hprops j hj).2.2.2.1
      omega
    · dsimp only
      rw [A03]
      simp [List.nodup_range']
    · dsimp only
      intro i hi
      rw [A03] at hi
      simp only [List.nil_append, List.mem_range'_1] at hi
      have hilt : i < procs.length := by omega
      have := (hprops i hilt).2.2.2.1
      have := (hprops i hilt).2.2.1
      have harr := A04 i (by omega) (by omega)
      exact ⟨by omega, by omega, le_of_eq harr⟩
    · dsimp only
      intro j hji hjlen
      have hrem := (hprops j hjlen).2.2.2.1
      refine ⟨hrem, ?_⟩
      have hA2lt : (admitEq procs 0 0 []).2 < procs.length := by omega
      have hstop := A05 hA2lt
      have harrA := (hprops _ hA2lt).2.1
      have hmono2 := hsort ((admitEq procs 0 0 []).2) j hji hjlen
      omega
    · dsimp only
      intro j hj
      rw [A03]
      simp only [List.nil_append, List.mem_range'_1]
      exact Or.inl ⟨Nat.zero_le _, by omega⟩
    · dsimp only
      intro j hj
      have hjlen : j < procs.length := by omega
      have harr := A04 j (Nat.zero_le _) hj
      have := (hprops j hjlen).2.2.2.1
      omega
    · exact hcount.symm
    · exact trivial
    · rfl
    · dsimp only
      intro g hg
      simp at hg
    · dsimp only
      intro g hg
      simp at hg
    · dsimp only
      simp [sumExec, hdef]
    · dsimp only
      intro j hjlen hrem
      have := (hprops j hjlen).2.2.2.1
      have := (hprops j hjlen).2.2.1
      omega

theorem pget_set (l : List Process) (i j : Nat) (v : Process) (hi : i < l.length) :
    pget (l.set i v) j = if i = j then v else pget l j := by
  by_cases h : i = j
  · subst h
    rw [if_pos rfl, pget_set_self _ _ _ hi]
  · rw [if_neg h, pget_set_ne _ _ _ _ h]

theorem forall_mem_of_forall_pget {P : Process → Prop} (l : List Process)
    (h : ∀ j, j < l.length → P (pget l j)) : ∀ p ∈ l, P p := by
  intro p hp
  obtain ⟨j, hj, rfl⟩ := List.mem_iff_getElem.mp hp
  rw [← pget_eq_getElem l j hj]
  exact h j hj

theorem rrIdle_inv (s : RRState) (hinv : RRInv s) (hq : s.q = [])
    (hidx : s.idx < s.procs.length) :
    RRInv (rrIdle s) ∧ (rrIdle s).procs = s.procs ∧ s.idx < (rrIdle s).idx ∧
    (rrIdle s).completed = s.completed := by
  have hcond : s.time < (pget s.procs s.idx).arrival :=
    (hinv.unadmitted s.idx (le_refl _) hidx).2
  have hstate : rrIdle s = ⟨s.procs,
      (admitEq s.procs ((pget s.procs s.idx).arrival) s.idx []).1,
      (pget s.procs s.idx).arrival, s.completed,
      (admitEq s.procs ((pget s.procs s.idx).arrival) s.idx []).2,
      s.gantt ++ [⟨-1, s.time, (pget s.procs s.idx).arrival⟩]⟩ := by
    simp only [rrIdle]
    rw [if_pos hcond]
    dsimp only
    rw [hq]
  rw [hstate]
  have A := admitEq_spec s.procs ((pget s.procs s.idx).arrival) s.idx [] hinv.idx_le
  obtain ⟨A1, A2, A3, A4, A5⟩ := A
  have hAgt : s.idx < (admitEq s.procs ((pget s.procs s.idx).arrival) s.idx []).2 := by
    rcases Nat.eq_or_lt_of_le A1 with heq | hlt
    · exfalso
      apply A5 (by omega)
      rw [← heq]
    · exact hlt
  refine ⟨⟨hinv.sorted_arr, hinv.arr_nonneg, hinv.burst_pos, hinv.pid_pos,
    ?_, A2, hinv.rem_nonneg, hinv.rem_le, ?_, ?_, ?_, ?_, ?_, ?_, ?_, ?_, ?_, ?_, ?_,
    hinv.finalized⟩, rfl, hAgt, rfl⟩
  · exact le_trans hinv.time_nonneg (le_of_lt hcond)
  · dsimp only
    rw [A3]
    simp [List.nodup_range']
  · dsimp only
    intro x hx
    rw [A3] at hx
    simp only [List.nil_append, List.mem_range'_1] at hx
    have hxlen : x < s.procs.length := by omega
    have hu := hinv.unadmitted x (by omega) hxlen
    have hb := hinv.burst_pos x hxlen
    exact ⟨by omega, by omega, le_of_eq (A4 x (by omega) (by omega))⟩
  · dsimp only
    intro j hji hjlen
    have hu := hinv.unadmitted j (by omega) hjlen
    refine ⟨hu.1, ?_⟩
    have hA2lt : (admitEq s.procs ((pget s.procs s.idx).arrival) s.idx []).2
        < s.procs.length := by omega
    have hstop := A5 hA2lt
    have hmono := hinv.sorted_arr s.idx _ (le_of_lt hAgt) hA2lt
    have hmono2 := hinv.sorted_arr _ j hji hjlen
    omega
  · dsimp only
    intro j hj
    by_cases hjold : j < s.idx
    · rcases hinv.partitioned j hjold with hmem | hrem0
      · rw [hq] at hmem
        simp at hmem
      · exact Or.inr hrem0
    · refine Or.inl ?_
      rw [A3]
      simp only [List.nil_append, List.mem_range'_1]
      omega
  · dsimp only
    intro j hj
    by_cases hjold : j < s.idx
    · have := hinv.executed j hjold
      omega
    · have hjlen : j < s.procs.length := by omega
      have hu := hinv.unadmitted j (by omega) hjlen
      have harr := A4 j (by omega) (by omega)
      omega
  · exact hinv.completed_eq
  · dsimp only
    exact (chainFrom_append 0 s.gantt _).mpr
      ⟨hinv.gantt_chain, by rw [hinv.gantt_end]; exact ⟨rfl, trivial⟩⟩
  · dsimp only
    rw [ganttEnd_append, hinv.gantt_end]
    rfl
  · dsimp only
    intro g hg
    rcases List.mem_append.mp hg with hold | hnew
    · exact hinv.gantt_pos g hold
    · simp only [List.mem_singleton] at hnew
      subst hnew
      exact hcond
  · dsimp only
    intro g hg
    rcases List.mem_append.mp hg with hold | hnew
    · exact hinv.gantt_pid g hold
    · simp only [List.mem_singleton] at hnew
      subst hnew
      exact Or.inl rfl
  · dsimp only
    rw [sumExec_append, hinv.busy_eq]
    simp [sumExec]

/-- Invariant preservation for the re-enqueue branch of `rrDispatchCore`
(the dispatched process still has remaining work).  The updated process
record `p'` and the emitted pid `gpid` are abstracted by equations so that
the lemma applies to the literal state produced by the code. -/
theorem rrStepInv_requeue (s : RRState) (hinv : RRInv s) (i : Nat) (rest : List Nat)
    (hq : s.q = i :: rest) (exec : Int) (p' : Process) (gpid : Int)
    (hgpid : gpid = (pget s.procs i).pid)
    (hpid : p'.pid = (pget s.procs i).pid)
    (harr : p'.arrival = (pget s.procs i).arrival)
    (hburst : p'.burst = (pget s.procs i).burst)
    (hrem : p'.remaining = (pget s.procs i).remaining - exec)
    (hexec1 : 1 ≤ exec) (hexec_le : exec ≤ (pget s.procs i).remaining)
    (hrempos : 0 < p'.remaining) :
    RRInv ⟨s.procs.set i p',
      (admitLe s.procs (s.time + exec) s.idx rest).1 ++ [i],
      s.time + exec, s.completed,
      (admitLe s.procs (s.time + exec) s.idx rest).2,
      s.gantt ++ [⟨gpid, s.time, s.time + exec⟩]⟩ := by
  obtain ⟨hi_idx, hi_rem, hi_arr⟩ :=
    hinv.q_mem i (by rw [hq]; exact List.mem_cons_self i rest)
  have hi_len : i < s.procs.length := lt_of_lt_of_le hi_idx hinv.idx_le
  have hnodup := hinv.q_nodup
  rw [hq] at hnodup
  have hi_notin : i ∉ rest := (List.nodup_cons.mp hnodup).1
  have hrest_nodup : rest.Nodup := (List.nodup_cons.mp hnodup).2
  have hrest_mem : ∀ x ∈ rest, x < s.idx ∧ 0 < (pget s.procs x).remaining ∧
      (pget s.procs x).arrival ≤ s.time :=
    fun x hx => hinv.q_mem x (by rw [hq]; exact List.mem_cons_of_mem i hx)
  obtain ⟨A1, A2, A3, A4, A5⟩ :=
    admitLe_spec s.procs (s.time + exec) s.idx rest hinv.idx_le
  have hlenset : (s.procs.set i p').length = s.procs.length := List.length_set s.procs i p'
  have hpget_ne : ∀ j, i ≠ j → pget (s.procs.set i p') j = pget s.procs j :=
    fun j hij => pget_set_ne s.procs i j p' hij
  have hpget_i : pget (s.procs.set i p') i = p' := pget_set_self s.procs i p' hi_len
  have harr_all : ∀ j, (pget (s.procs.set i p') j).arrival = (pget s.procs j).arrival := by
    intro j
    by_cases h : i = j
    · rw [← h, hpget_i, harr]
    · rw [hpget_ne j h]
  have hburst_all : ∀ j, (pget (s.procs.set i p') j).burst = (pget s.procs j).burst := by
    intro j
    by_cases h : i = j
    · rw [← h, hpget_i, hburst]
    · rw [hpget_ne j h]
  have hpid_all : ∀ j, (pget (s.procs.set i p') j).pid = (pget s.procs j).pid := by
    intro j
    by_cases h : i = j
    · rw [← h, hpget_i, hpid]
    · rw [hpget_ne j h]
  refine ⟨?_, ?_, ?_, ?_, ?_, ?_, ?_, ?_, ?_, ?_, ?_, ?_, ?_, ?_, ?_, ?_, ?_, ?_, ?_, ?_⟩
  · dsimp only
    intro j k hjk hk
    rw [hlenset] at hk
    rw [harr_all, harr_all]
    exact hinv.sorted_arr j k hjk hk
  · dsimp only
    intro j hj
    rw [hlenset] at hj
    rw [harr_all]
    exact hinv.arr_nonneg j hj
  · dsimp only
    intro j hj
    rw [hlenset] at hj
    rw [hburst_all]
    exact hinv.burst_pos j hj
  · dsimp only
    intro j hj
    rw [hlenset] at hj
    rw [hpid_all]
    exact hinv.pid_pos j hj
  · dsimp only
    have := hinv.time_nonneg
    omega
  · dsimp only
    rw [hlenset]
    exact A2
  · dsimp only
    intro j hj
    rw [hlenset] at hj
    by_cases h : i = j
    · rw [← h, hpget_i, hrem]
      omega
    · rw [hpget_ne j h]
      exact hinv.rem_nonneg j hj
  · dsimp only
    intro j hj
    rw [hlenset] at hj
    by_cases h : i = j
    · rw [← h, hpget_i, hrem, hburst]
      have := hinv.rem_le i hi_len
      omega
    · rw [hpget_ne j h]
      exact hinv.rem_le j hj
  · dsimp only
    rw [A3]
    have hwin : (rest ++ List.range' s.idx
        ((admitLe s.procs (s.time + exec) s.idx rest).2 - s.idx)).Nodup := by
      apply List.Nodup.append hrest_nodup (by simp [List.nodup_range'])
      intro a ha ha'
      have := (hrest_mem a ha).1
      rw [List.mem_range'_1] at ha'
      omega
    apply List.Nodup.append hwin (List.nodup_singleton i)
    intro a ha ha'
    simp only [List.mem_singleton] at ha'
    subst ha'
    rcases List.mem_append.mp ha with h1 | h2
    · exact hi_notin h1
    · rw [List.mem_range'_1] at h2
      omega
  · dsimp only
    intro x hx
    rcases List.mem_append.mp hx with hx1 | hx2
    · rw [A3] at hx1
      rcases List.mem_append.mp hx1 with hxr | hxw
      · obtain ⟨hx_idx, hx_rem, hx_arr⟩ := hrest_mem x hxr
        have hxi : i ≠ x := fun h => hi_notin (h ▸ hxr)
        refine ⟨by omega, ?_, ?_⟩
        · rw [hpget_ne x hxi]
          exact hx_rem
        · rw [harr_all x]
          omega
      · rw [List.mem_range'_1] at hxw
        have hxlen : x < s.procs.length := by omega
        have hu := hinv.unadmitted x (by omega) hxlen
        have hb := hinv.burst_pos x hxlen
        have hxi : i ≠ x := by omega
        refine ⟨by omega, ?_, ?_⟩
        · rw [hpget_ne x hxi]
          omega
        · rw [harr_all x]
          exact A4 x (by omega) (by omega)
    · simp only [List.mem_singleton] at hx2
      refine ⟨by omega, ?_, ?_⟩
      · rw [hx2, hpget_i]
        exact hrempos
      · rw [hx2, harr_all i]
        omega
  · dsimp only
    intro j hji hjlen
    rw [hlenset] at hjlen
    have hij : i ≠ j := by omega
    have hu := hinv.unadmitted j (by omega) hjlen
    constructor
    · rw [hpget_ne j hij]
      exact hu.1
    · rw [harr_all j]
      have hA5 := A5 (by omega)
      have hmono := hinv.sorted_arr _ j hji hjlen
      omega
  · dsimp only
    intro j hj
    by_cases hjold : j < s.idx
    · rcases hinv.partitioned j hjold with hmem | hrem0
      · rw [hq] at hmem
        rcases List.mem_cons.mp hmem with rfl | hmemr
        · exact Or.inl (List.mem_append.mpr (Or.inr (List.mem_singleton.mpr rfl)))
        · refine Or.inl (List.mem_append.mpr (Or.inl ?_))
          rw [A3]
          exact List.mem_append.mpr (Or.inl hmemr)
      · have hij : i ≠ j := by
          intro h
          rw [← h] at hrem0
          omega
        refine Or.inr ?_
        rw [hpget_ne j hij]
        exact hrem0
    · refine Or.inl (List.mem_append.mpr (Or.inl ?_))
      rw [A3]
      refine List.mem_append.mpr (Or.inr ?_)
      rw [List.mem_range'_1]
      omega
  · dsimp only
    intro j hj
    by_cases hij : i = j
    · rw [← hij, hpget_i, hburst, harr, hrem]
      have := hinv.executed i hi_idx
      omega
    · by_cases hjold : j < s.idx
      · rw [hpget_ne j hij]
        have := hinv.executed j hjold
        omega
      · have hjlen : j < s.procs.length := by omega
        have hu := hinv.unadmitted j (by omega) hjlen
        have hA4 := A4 j (by omega) hj
        rw [hpget_ne j hij]
        omega
  · dsimp only
    have hc := countP_set_add (fun p => p.remaining == 0) s.procs i p' hi_len
    have hold : ¬((fun p => p.remaining == 0) (pget s.procs i) = true) := by
      simp only [beq_iff_eq]
      omega
    have hnew : ¬((fun p => p.remaining == 0) p' = true) := by
      simp only [beq_iff_eq]
      omega
    rw [if_neg hold, if_neg hnew] at hc
    rw [hinv.completed_eq]
    omega
  · dsimp only
    exact (chainFrom_append 0 s.gantt _).mpr
      ⟨hinv.gantt_chain, by rw [hinv.gantt_end]; exact ⟨rfl, trivial⟩⟩
  · dsimp only
    rw [ganttEnd_append, hinv.gantt_end]
    rfl
  · dsimp only
    intro g hg
    rcases List.mem_append.mp hg with hold | hnew
    · exact hinv.gantt_pos g hold
    · simp only [List.mem_singleton] at hnew
      subst hnew
      dsimp only
      omega
  · dsimp only
    intro g hg
    rcases List.mem_append.mp hg with hold | hnew
    · exact hinv.gantt_pid g hold
    · simp only [List.mem_singleton] at hnew
      subst hnew
      refine Or.inr ?_
      dsimp only
      rw [hgpid]
      exact hinv.pid_pos i hi_len
  · dsimp only
    rw [sumExec_append, hinv.busy_eq, totalDeficit_set s.procs i p' hi_len]
    have hne : gpid ≠ -1 := by
      rw [hgpid]
      have := hinv.pid_pos i hi_len
      omega
    simp only [sumExec, if_neg hne]
    rw [hburst, hrem]
    ring
  · dsimp only
    intro j hjlen hrem0
    rw [hlenset] at hjlen
    have hij : i ≠ j := by
      intro h
      rw [← h, hpget_i] at hrem0
      omega
    rw [hpget_ne j hij] at hrem0 ⊢
    exact hinv.finalized j hjlen hrem0

/-- Invariant preservation for the finalize branch of `rrDispatchCore`
(the dispatched process runs out of remaining work and its completion,
turnaround and waiting times are recorded). -/
theorem rrStepInv_finalize (s : RRState) (hinv : RRInv s) (i : Nat) (rest : List Nat)
    (hq : s.q = i :: rest) (exec : Int) (p' : Process) (gpid : Int)
    (hgpid : gpid = (pget s.procs i).pid)
    (hpid : p'.pid = (pget s.procs i).pid)
    (harr : p'.arrival = (pget s.procs i).arrival)
    (hburst : p'.burst = (pget s.procs i).burst)
    (hrem : p'.remaining = (pget s.procs i).remaining - exec)
    (hexec1 : 1 ≤ exec) (hexec_le : exec ≤ (pget s.procs i).remaining)
    (hrem0 : p'.remaining = 0)
    (hcomp : p'.completion_time = s.time + exec)
    (htat : p'.turnaround_time = (s.time + exec) - p'.arrival)
    (hwt : p'.waiting_time = (s.time + exec) - p'.arrival - p'.burst) :
    RRInv ⟨s.procs.set i p',
      (admitLe s.procs (s.time + exec) s.idx rest).1,
      s.time + exec, s.completed + 1,
      (admitLe s.procs (s.time + exec) s.idx rest).2,
      s.gantt ++ [⟨gpid, s.time, s.time + exec⟩]⟩ := by
  obtain ⟨hi_idx, hi_rem, hi_arr⟩ :=
    hinv.q_mem i (by rw [hq]; exact List.mem_cons_self i rest)
  have hi_len : i < s.procs.length := lt_of_lt_of_le hi_idx hinv.idx_le
  have hnodup := hinv.q_nodup
  rw [hq] at hnodup
  have hi_notin : i ∉ rest := (List.nodup_cons.mp hnodup).1
  have hrest_nodup : rest.Nodup := (List.nodup_cons.mp hnodup).2
  have hrest_mem : ∀ x ∈ rest, x < s.idx ∧ 0 < (pget s.procs x).remaining ∧
      (pget s.procs x).arrival ≤ s.time :=
    fun x hx => hinv.q_mem x (by rw [hq]; exact List.mem_cons_of_mem i hx)
  obtain ⟨A1, A2, A3, A4, A5⟩ :=
    admitLe_spec s.procs (s.time + exec) s.idx rest hinv.idx_le
  have hlenset : (s.procs.set i p').length = s.procs.length := List.length_set s.procs i p'
  have hpget_ne : ∀ j, i ≠ j → pget (s.procs.set i p') j = pget s.procs j :=
    fun j hij => pget_set_ne s.procs i j p' hij
  have hpget_i : pget (s.procs.set i p') i = p' := pget_set_self s.procs i p' hi_len
  have harr_all : ∀ j, (pget (s.procs.set i p') j).arrival = (pget s.procs j).arrival := by
    intro j
    by_cases h : i = j
    · rw [← h, hpget_i, harr]
    · rw [hpget_ne j h]
  have hburst_all : ∀ j, (pget (s.procs.set i p') j).burst = (pget s.procs j).burst := by
    intro j
    by_cases h : i = j
    · rw [← h, hpget_i, hburst]
    · rw [hpget_ne j h]
  have hpid_all : ∀ j, (pget (s.procs.set i p') j).pid = (pget s.procs j).pid := by
    intro j
    by_cases h : i = j
    · rw [← h, hpget_i, hpid]
    · rw [hpget_ne j h]
  refine ⟨?_, ?_, ?_, ?_, ?_, ?_, ?_, ?_, ?_, ?_, ?_, ?_, ?_, ?_, ?_, ?_, ?_, ?_, ?_, ?_⟩
  · dsimp only
    intro j k hjk hk
    rw [hlenset] at hk
    rw [harr_all, harr_all]
    exact hinv.sorted_arr j k hjk hk
  · dsimp only
    intro j hj
    rw [hlenset] at hj
    rw [harr_all]
    exact hinv.arr_nonneg j hj
  · dsimp only
    intro j hj
    rw [hlenset] at hj
    rw [hburst_all]
    exact hinv.burst_pos j hj
  · dsimp only
    intro j hj
    rw [hlenset] at hj
    rw [hpid_all]
    exact hinv.pid_pos j hj
  · dsimp only
    have := hinv.time_nonneg
    omega
  · dsimp only
    rw [hlenset]
    exact A2
  · dsimp only
    intro j hj
    rw [hlenset] at hj
    by_cases h : i = j
    · rw [← h, hpget_i, hrem]
      omega
    · rw [hpget_ne j h]
      exact hinv.rem_nonneg j hj
  · dsimp only
    intro j hj
    rw [hlenset] at hj
    by_cases h : i = j
    · rw [← h, hpget_i, hrem, hburst]
      have := hinv.rem_le i hi_len
      omega
    · rw [hpget_ne j h]
      exact hinv.rem_le j hj
  · dsimp only
    rw [A3]
    apply List.Nodup.append hrest_nodup (by simp [List.nodup_range'])
    intro a ha ha'
    have := (hrest_mem a ha).1
    rw [List.mem_range'_1] at ha'
    omega
  · dsimp only
    intro x hx
    rw [A3] at hx
    rcases List.mem_append.mp hx with hxr | hxw
    · obtain ⟨hx_idx, hx_rem, hx_arr⟩ := hrest_mem x hxr
      have hxi : i ≠ x := fun h => hi_notin (h ▸ hxr)
      refine ⟨by omega, ?_, ?_⟩
      · rw [hpget_ne x hxi]
        exact hx_rem
      · rw [harr_all x]
        omega
    · rw [List.mem_range'_1] at hxw
      have hxlen : x < s.procs.length := by omega
      have hu := hinv.unadmitted x (by omega) hxlen
      have hb := hinv.burst_pos x hxlen
      have hxi : i ≠ x := by omega
      refine ⟨by omega, ?_, ?_⟩
      · rw [hpget_ne x hxi]
        omega
      · rw [harr_all x]
        exact A4 x (by omega) (by omega)
  · dsimp only
    intro j hji hjlen
    rw [hlenset] at hjlen
    have hij : i ≠ j := by omega
    have hu := hinv.unadmitted j (by omega) hjlen
    constructor
    · rw [hpget_ne j hij]
      exact hu.1
    · rw [harr_all j]
      have hA5 := A5 (by omega)
      have hmono := hinv.sorted_arr _ j hji hjlen
      omega
  · dsimp only
    intro j hj
    by_cases hij : i = j
    · refine Or.inr ?_
      rw [← hij, hpget_i]
      exact hrem0
    · by_cases hjold : j < s.idx
      · rcases hinv.partitioned j hjold with hmem | hrem0'
        · rw [hq] at hmem
          rcases List.mem_cons.mp hmem with h | hmemr
          · exact absurd h.symm hij
          · refine Or.inl ?_
            rw [A3]
            exact List.mem_append.mpr (Or.inl hmemr)
        · refine Or.inr ?_
          rw [hpget_ne j hij]
          exact hrem0'
      · refine Or.inl ?_
        rw [A3]
        refine List.mem_append.mpr (Or.inr ?_)
        rw [List.mem_range'_1]
        omega
  · dsimp only
    intro j hj
    by_cases hij : i = j
    · rw [← hij, hpget_i, hburst, harr, hrem]
      have := hinv.executed i hi_idx
      omega
    · by_cases hjold : j < s.idx
      · rw [hpget_ne j hij]
        have := hinv.executed j hjold
        omega
      · have hjlen : j < s.procs.length := by omega
        have hu := hinv.unadmitted j (by omega) hjlen
        have hA4 := A4 j (by omega) hj
        rw [hpget_ne j hij]
        omega
  · dsimp only
    have hc := countP_set_add (fun p => p.remaining == 0) s.procs i p' hi_len
    have hold : ¬((fun p => p.remaining == 0) (pget s.procs i) = true) := by
      simp only [beq_iff_eq]
      omega
    have hnew : ((fun p => p.remaining == 0) p' = true) := by
      simp only [beq_iff_eq]
      omega
    rw [if_neg hold, if_pos hnew] at hc
    rw [hinv.completed_eq]
    omega
  · dsimp only
    exact (chainFrom_append 0 s.gantt _).mpr
      ⟨hinv.gantt_chain, by rw [hinv.gantt_end]; exact ⟨rfl, trivial⟩⟩
  · dsimp only
    rw [ganttEnd_append, hinv.gantt_end]
    rfl
  · dsimp only
    intro g hg
    rcases List.mem_append.mp hg with hold | hnew
    · exact hinv.gantt_pos g hold
    · simp only [List.mem_singleton] at hnew
      subst hnew
      dsimp only
      omega
  · dsimp only
    intro g hg
    rcases List.mem_append.mp hg with hold | hnew
    · exact hinv.gantt_pid g hold
    · simp only [List.mem_singleton] at hnew
      subst hnew
      refine Or.inr ?_
      dsimp only
      rw [hgpid]
      exact hinv.pid_pos i hi_len
  · dsimp only
    rw [sumExec_append, hinv.busy_eq, totalDeficit_set s.procs i p' hi_len]
    have hne : gpid ≠ -1 := by
      rw [hgpid]
      have := hinv.pid_pos i hi_len
      omega
    simp only [sumExec, if_neg hne]
    rw [hburst, hrem]
    ring
  · dsimp only
    intro j hjlen hrem0'
    rw [hlenset] at hjlen
    by_cases hij : i = j
    · rw [← hij, hpget_i]
      have hex := hinv.executed i hi_idx
      refine ⟨?_, ?_, ?_⟩
      · rw [hcomp, harr, hburst]
        omega
      · rw [htat, hcomp]
      · rw [hwt, htat]
    · rw [hpget_ne j hij] at hrem0' ⊢
      exact hinv.finalized j hjlen hrem0'

theorem sameStatic_set (l : List Process) (i : Nat) (v : Process) (hi : i < l.length)
    (hpid : v.pid = (pget l i).pid) (harr : v.arrival = (pget l i).arrival)
    (hburst : v.burst = (pget l i).burst) (hprio : v.priority = (pget l i).priority) :
    sameStatic l (l.set i v) := by
  refine ⟨(List.length_set l i v).symm, fun j hj => ?_⟩
  rw [pget_set l i j v hi]
  by_cases h : i = j
  · rw [if_pos h, ← h]
    exact ⟨hpid, harr, hburst, hprio⟩
  · rw [if_neg h]
    exact ⟨rfl, rfl, rfl, rfl⟩

theorem rrDispatch_step (quantum : Int) (hq1 : 1 ≤ quantum) (s : RRState)
    (hinv : RRInv s) (i : Nat) (rest : List Nat) (hq : s.q = i :: rest) :
    RRInv (rrDispatch quantum s) ∧
    sameStatic s.procs (rrDispatch quantum s).procs ∧
    s.idx ≤ (rrDispatch quantum s).idx ∧
    (rrDispatch quantum s).procs.length = s.procs.length ∧
    totalRemaining (rrDispatch quantum s).procs ≤ totalRemaining s.procs - 1 := by
  obtain ⟨hi_idx, hi_rem, hi_arr⟩ :=
    hinv.q_mem i (by rw [hq]; exact List.mem_cons_self i rest)
  have hi_len : i < s.procs.length := lt_of_lt_of_le hi_idx hinv.idx_le
  have hdisp : rrDispatch quantum s = rrDispatchCore quantum s i rest := by
    unfold rrDispatch
    rw [hq]
  rw [hdisp]
  have hexec1 : 1 ≤ min quantum (markStarted (pget s.procs i) s.time).remaining := by
    rw [markStarted_remaining]
    exact le_min hq1 (by omega)
  have hexec_le : min quantum (markStarted (pget s.procs i) s.time).remaining
      ≤ (pget s.procs i).remaining := by
    rw [markStarted_remaining]
    exact min_le_right _ _
  obtain ⟨A1, A2, A3, A4, A5⟩ := admitLe_spec s.procs
    (s.time + min quantum (markStarted (pget s.procs i) s.time).remaining)
    s.idx rest hinv.idx_le
  unfold rrDispatchCore
  dsimp only
  split
  · next hbr =>
    refine ⟨?_, ?_, ?_, ?_, ?_⟩
    · exact rrStepInv_requeue s hinv i rest hq
        (min quantum (markStarted (pget s.procs i) s.time).remaining) _ _
        (markStarted_pid _ _) (markStarted_pid _ _) (markStarted_arrival _ _)
        (markStarted_burst _ _) (by dsimp only; rw [markStarted_remaining])
        hexec1 hexec_le hbr
    · exact sameStatic_set s.procs i _ hi_len (markStarted_pid _ _)
        (markStarted_arrival _ _) (markStarted_burst _ _) (markStarted_priority _ _)
    · exact A1
    · exact List.length_set s.procs i _
    · rw [totalRemaining_set s.procs i _ hi_len]
      dsimp only
      rw [markStarted_remaining]
      omega
  · next hbr =>
    rw [markStarted_remaining] at hbr
    refine ⟨?_, ?_, ?_, ?_, ?_⟩
    · exact rrStepInv_finalize s hinv i rest hq
        (min quantum (markStarted (pget s.procs i) s.time).remaining) _ _
        (markStarted_pid _ _) (markStarted_pid _ _) (markStarted_arrival _ _)
        (markStarted_burst _ _) (by dsimp only; rw [markStarted_remaining])
        hexec1 hexec_le
        (by dsimp only; rw [markStarted_remaining] at hexec_le ⊢; omega)
        rfl (by dsimp only) (by dsimp only)
    · exact sameStatic_set s.procs i _ hi_len (markStarted_pid _ _)
        (markStarted_arrival _ _) (markStarted_burst _ _) (markStarted_priority _ _)
    · exact A1
    · exact List.length_set s.procs i _
    · rw [totalRemaining_set s.procs i _ hi_len]
      dsimp only
      rw [markStarted_remaining]
      omega

/-- The `round_robin` loop has reached its exit: either every process is
completed (guard fails) or the queue is empty with no arrivals left
(`break`). -/
def rrStopped (s : RRState) : Prop :=
  s.procs.length ≤ s.completed ∨ (s.q = [] ∧ s.procs.length ≤ s.idx)

theorem rrLoop_master (quantum : Int) (hq1 : 1 ≤ quantum) :
    ∀ (fuel : Nat) (s : RRState), RRInv s → rrMeasure s < fuel →
      RRInv (rrLoop quantum fuel s) ∧ rrStopped (rrLoop quantum fuel s) ∧
      sameStatic s.procs (rrLoop quantum fuel s).procs := by
  intro fuel
  induction fuel with
  | zero =>
    intro s hinv hm
    omega
  | succ fuel ih =>
    intro s hinv hm
    by_cases hguard : s.completed < s.procs.length
    · cases hqe : s.q with
      | nil =>
        by_cases hidx : s.idx < s.procs.length
        · have hred : rrLoop quantum (fuel+1) s = rrLoop quantum fuel (rrIdle s) := by
            simp only [rrLoop]
            rw [if_pos hguard, hqe]
            dsimp only
            rw [if_pos hidx]
          obtain ⟨hinv', hpe, hlt, hce⟩ := rrIdle_inv s hinv hqe hidx
          have hm' : rrMeasure (rrIdle s) < fuel := by
            have hle' : (rrIdle s).idx ≤ (rrIdle s).procs.length := hinv'.idx_le
            rw [hpe] at hle'
            unfold rrMeasure at hm ⊢
            rw [hpe]
            omega
          obtain ⟨h1, h2, h3⟩ := ih (rrIdle s) hinv' hm'
          rw [hred]
          refine ⟨h1, h2, sameStatic_trans ?_ h3⟩
          rw [hpe]
          exact sameStatic_refl s.procs
        · have hred : rrLoop quantum (fuel+1) s = s := by
            simp only [rrLoop]
            rw [if_pos hguard, hqe]
            dsimp only
            rw [if_neg hidx]
          rw [hred]
          exact ⟨hinv, Or.inr ⟨hqe, by omega⟩, sameStatic_refl s.procs⟩
      | cons i rest =>
        have hred : rrLoop quantum (fuel+1) s
            = rrLoop quantum fuel (rrDispatch quantum s) := by
          simp only [rrLoop]
          rw [if_pos hguard, hqe]
        obtain ⟨hinv', hstat, hidxle, hlen, htot⟩ :=
          rrDispatch_step quantum hq1 s hinv i rest hqe
        have hm' : rrMeasure (rrDispatch quantum s) < fuel := by
          have hnn : 0 ≤ totalRemaining (rrDispatch quantum s).procs := by
            apply totalRemaining_nonneg
            exact forall_mem_of_forall_pget _ hinv'.rem_nonneg
          have hnn0 : 0 ≤ totalRemaining s.procs := by
            apply totalRemaining_nonneg
            exact forall_mem_of_forall_pget _ hinv.rem_nonneg
          unfold rrMeasure at hm ⊢
          rw [hlen]
          omega
        obtain ⟨h1, h2, h3⟩ := ih (rrDispatch quantum s) hinv' hm'
        rw [hred]
        exact ⟨h1, h2, sameStatic_trans hstat h3⟩
    · have hred : rrLoop quantum (fuel+1) s = s := by
        simp only [rrLoop]
        rw [if_neg hguard]
      rw [hred]
      exact ⟨hinv, Or.inl (by omega), sameStatic_refl s.procs⟩

theorem rrStopped_all_done (s : RRState) (hinv : RRInv s) (hstop : rrStopped s) :
    (∀ j, j < s.procs.length → (pget s.procs j).remaining = 0) ∧
    s.completed = s.procs.length := by
  have hcount := hinv.completed_eq
  rcases hstop with hc | ⟨hq, hidx⟩
  · have hle : s.procs.countP (fun p => p.remaining == 0) ≤ s.procs.length :=
      List.countP_le_length _
    have hceq : s.procs.countP (fun p => p.remaining == 0) = s.procs.length := by omega
    have hall := List.countP_eq_length.mp hceq
    refine ⟨?_, by omega⟩
    intro j hj
    have := hall (pget s.procs j) (pget_mem s.procs j hj)
    simpa using this
  · have hall : ∀ j, j < s.procs.length → (pget s.procs j).remaining = 0 := by
      intro j hj
      rcases hinv.partitioned j (by omega) with hmem | h0
      · rw [hq] at hmem
        simp at hmem
      · exact h0
    refine ⟨hall, ?_⟩
    rw [hcount]
    apply List.countP_eq_length.mpr
    apply forall_mem_of_forall_pget
    intro j hj
    simpa using hall j hj

theorem rrInitCore_procs (procs : List Process) : (rrInitCore procs).procs = procs := by
  simp only [rrInitCore]
  split <;> rfl

theorem rrLoop_stopped_fix (quantum : Int) (s : RRState) (hstop : rrStopped s) :
    ∀ fuel, rrLoop quantum fuel s = s := by
  intro fuel
  cases fuel with
  | zero => rfl
  | succ f =>
    simp only [rrLoop]
    by_cases hg : s.completed < s.procs.length
    · rcases hstop with h | ⟨hq, hidx⟩
      · omega
      · rw [if_pos hg, hq]
        dsimp only
        rw [if_neg (by omega)]
    · rw [if_neg hg]

theorem rrLoop_add (quantum : Int) :
    ∀ (fuel : Nat) (s : RRState) (m : Nat),
      rrStopped (rrLoop quantum fuel s) →
      rrLoop quantum (fuel + m) s = rrLoop quantum fuel s := by
  intro fuel
  induction fuel with
  | zero =>
    intro s m hstop
    have : (0 : Nat) + m = m := by omega
    rw [this]
    exact rrLoop_stopped_fix quantum s hstop m
  | succ f ih =>
    intro s m hstop
    have hm : f + 1 + m = (f + m) + 1 := by omega
    rw [hm]
    by_cases hg : s.completed < s.procs.length
    · cases hqe : s.q with
      | nil =>
        by_cases hidx : s.idx < s.procs.length
        · have e1 : rrLoop quantum (f+1) s = rrLoop quantum f (rrIdle s) := by
            simp only [rrLoop]
            rw [if_pos hg, hqe]
            dsimp only
            rw [if_pos hidx]
          have e2 : rrLoop quantum ((f+m)+1) s = rrLoop quantum (f+m) (rrIdle s) := by
            simp only [rrLoop]
            rw [if_pos hg, hqe]
            dsimp only
            rw [if_pos hidx]
          rw [e1] at hstop ⊢
          rw [e2]
          exact ih (rrIdle s) m hstop
        · have e1 : rrLoop quantum (f+1) s = s := by
            simp only [rrLoop]
            rw [if_pos hg, hqe]
            dsimp only
            rw [if_neg hidx]
          have e2 : rrLoop quantum ((f+m)+1) s = s := by
            simp only [rrLoop]
            rw [if_pos hg, hqe]
            dsimp only
            rw [if_neg hidx]
          rw [e1, e2]
      | cons i rest =>
        have e1 : rrLoop quantum (f+1) s = rrLoop quantum f (rrDispatch quantum s) := by
          simp only [rrLoop]
          rw [if_pos hg, hqe]
        have e2 : rrLoop quantum ((f+m)+1) s
            = rrLoop quantum (f+m) (rrDispatch quantum s) := by
          simp only [rrLoop]
          rw [if_pos hg, hqe]
        rw [e1] at hstop ⊢
        rw [e2]
        exact ih (rrDispatch quantum s) m hstop
    · have e1 : rrLoop quantum (f+1) s = s := by
        simp only [rrLoop]
        rw [if_neg hg]
      have e2 : rrLoop quantum ((f+m)+1) s = s := by
        simp only [rrLoop]
        rw [if_neg hg]
      rw [e1, e2]

theorem totalDeficit_eq_totalBurst (l : List Process)
    (h : ∀ p ∈ l, p.remaining = 0) :
    totalDeficit l = (l.map (fun p => p.burst)).sum := by
  unfold totalDeficit
  congr 1
  apply List.map_congr_left
  intro p hp
  rw [h p hp]
  ring

theorem totalBurst_sameStatic (l1 l2 : List Process) (h : sameStatic l1 l2) :
    (l2.map (fun p => p.burst)).sum = (l1.map (fun p => p.burst)).sum := by
  obtain ⟨hlen, hfields⟩ := h
  congr 1
  apply List.ext_getElem (by simp [hlen])
  intro i h1 h2
  simp only [List.getElem_map]
  have := (hfields i (by simpa using h2)).2.2.1
  rw [← pget_eq_getElem l1 i (by simpa using h2),
    ← pget_eq_getElem l2 i (by simpa [← hlen] using h1)] at *
  exact this

/-- Summary of a finished Round Robin run on valid input: the loop invariant
holds of the final state, the final process vector agrees with the sorted
input on the immutable fields, every process has run to completion, and the
`completed` counter equals the process count. -/
theorem round_robin_final (ps : List Process) (quantum : Int)
    (hv : ValidProcs ps) (hq1 : 1 ≤ quantum) :
    RRInv (round_robin ps quantum) ∧
    sameStatic (List.insertionSort rrBefore ps) (round_robin ps quantum).procs ∧
    (∀ j, j < (round_robin ps quantum).procs.length →
      (pget (round_robin ps quantum).procs j).remaining = 0) ∧
    (round_robin ps quantum).completed = (round_robin ps quantum).procs.length ∧
    (round_robin ps quantum).procs.length = ps.length := by
  have hinv0 : RRInv (rrInit ps) := rrInitCore_inv _ (sortedValid_rr ps hv)
  have hrr : round_robin ps quantum
      = rrLoop quantum (rrMeasure (rrInit ps) + 1) (rrInit ps) := rfl
  obtain ⟨h1, h2, h3⟩ := rrLoop_master quantum hq1 (rrMeasure (rrInit ps) + 1)
    (rrInit ps) hinv0 (by omega)
  rw [← hrr] at h1 h2 h3
  have hpinit : (rrInit ps).procs = List.insertionSort rrBefore ps :=
    rrInitCore_procs _
  rw [hpinit] at h3
  obtain ⟨hdone, hcomp⟩ := rrStopped_all_done _ h1 h2
  refine ⟨h1, h3, hdone, hcomp, ?_⟩
  have := h3.1
  rw [← this, (List.perm_insertionSort rrBefore ps).length_eq]

/-! ## The Preemptive Priority loop invariant -/

/-- Inductive invariant of the `preemptive_priority` simulation loop.  It
matches `RRInv` except that the ready structure is the heap `pq`, the bound
on unadmitted arrivals is non-strict (the idle step may advance the clock
exactly onto the next arrival before admitting it), and every execution
interval has unit length. -/
structure PPSInv (s : PPSState) : Prop where
  sorted_arr : ∀ j k, j ≤ k → k < s.procs.length →
    (pget s.procs j).arrival ≤ (pget s.procs k).arrival
  arr_nonneg : ∀ j, j < s.procs.length → 0 ≤ (pget s.procs j).arrival
  burst_pos : ∀ j, j < s.procs.length → 0 < (pget s.procs j).burst
  pid_pos : ∀ j, j < s.procs.length → 0 < (pget s.procs j).pid
  time_nonneg : 0 ≤ s.time
  idx_le : s.idx ≤ s.procs.length
  rem_nonneg : ∀ j, j < s.procs.length → 0 ≤ (pget s.procs j).remaining
  rem_le : ∀ j, j < s.procs.length →
    (pget s.procs j).remaining ≤ (pget s.procs j).burst
  q_nodup : s.pq.Nodup
  q_mem : ∀ i ∈ s.pq, i < s.idx ∧ 0 < (pget s.procs i).remaining ∧
    (pget s.procs i).arrival ≤ s.time
  unadmitted : ∀ j, s.idx ≤ j → j < s.procs.length →
    (pget s.procs j).remaining = (pget s.procs j).burst ∧
    s.time ≤ (pget s.procs j).arrival
  partitioned : ∀ j, j < s.idx → j ∈ s.pq ∨ (pget s.procs j).remaining = 0
  executed : ∀ j, j < s.idx →
    (pget s.procs j).burst - (pget s.procs j).remaining
      ≤ s.time - (pget s.procs j).arrival
  completed_eq : s.completed = s.procs.countP (fun p => p.remaining == 0)
  gantt_chain : chainFrom 0 s.gantt
  gantt_end : ganttEnd 0 s.gantt = s.time
  gantt_pos : ∀ g ∈ s.gantt, g.start < g.stop
  gantt_pid : ∀ g ∈ s.gantt, g.pid = -1 ∨ 0 < g.pid
  gantt_unit : ∀ g ∈ s.gantt, g.pid ≠ -1 → g.stop = g.start + 1
  busy_eq : sumExec s.gantt = totalDeficit s.procs
  finalized : ∀ j, j < s.procs.length → (pget s.procs j).remaining = 0 →
    (pget s.procs j).arrival + (pget s.procs j).burst
        ≤ (pget s.procs j).completion_time ∧
    (pget s.procs j).turnaround_time
        = (pget s.procs j).completion_time - (pget s.procs j).arrival ∧
    (pget s.procs j).waiting_time
        = (pget s.procs j).turnaround_time - (pget s.procs j).burst

theorem pqPopMin_none (procs : List Process) (l : List Nat) :
    pqPopMin procs l = none ↔ l = [] := by
  cases l with
  | nil => simp [pqPopMin]
  | cons a rest =>
    simp only [pqPopMin]
    constructor
    · intro h
      cases hrec : pqPopMin procs rest with
      | none => rw [hrec] at h; simp at h
      | some br =>
        obtain ⟨b, rest'⟩ := br
        rw [hrec] at h
        dsimp only at h
        by_cases hk : keyLe (pqKey procs a) (pqKey procs b)
        · rw [if_pos hk] at h; simp at h
        · rw [if_neg hk] at h; simp at h
    · intro h
      simp at h

theorem pqPopMin_perm (procs : List Process) :
    ∀ (l : List Nat) (x : Nat) (r : List Nat),
      pqPopMin procs l = some (x, r) → l.Perm (x :: r) := by
  intro l
  induction l with
  | nil =>
    intro x r h
    simp [pqPopMin] at h
  | cons a rest ih =>
    intro x r h
    simp only [pqPopMin] at h
    cases hrec : pqPopMin procs rest with
    | none =>
      have hrestnil : rest = [] := (pqPopMin_none procs rest).mp hrec
      rw [hrec] at h
      dsimp only at h
      simp only [Option.some.injEq, Prod.mk.injEq] at h
      obtain ⟨rfl, rfl⟩ := h
      rw [hrestnil]
    | some br =>
      obtain ⟨b, rest'⟩ := br
      rw [hrec] at h
      dsimp only at h
      have hperm := ih b rest' hrec
      by_cases hk : keyLe (pqKey procs a) (pqKey procs b)
      · rw [if_pos hk] at h
        simp only [Option.some.injEq, Prod.mk.injEq] at h
        obtain ⟨rfl, rfl⟩ := h
        exact List.Perm.refl _
      · rw [if_neg hk] at h
        simp only [Option.some.injEq, Prod.mk.injEq] at h
        obtain ⟨rfl, rfl⟩ := h
        exact (hperm.cons a).trans (List.Perm.swap b a rest')

theorem ppsInitCore_inv (procs : List Process) (hs : SortedValid procs) :
    PPSInv (ppsInitCore procs) := by
  obtain ⟨hsort, hprops, hlen⟩ := hs
  have hcount := countP_rem_zero procs
    (fun j hj => ⟨(hprops j hj).2.2.1, (hprops j hj).2.2.2.1⟩)
  have hdef : totalDeficit procs = 0 := by
    apply totalDeficit_eq_zero
    intro p hp
    obtain ⟨j, hj, rfl⟩ := List.mem_iff_getElem.mp hp
    rw [← pget_eq_getElem procs j hj]
    exact (hprops j hj).2.2.2.1
  unfold ppsInitCore
  by_cases hcond : 0 < procs.length ∧ 0 < (pget procs 0).arrival
  · rw [if_pos hcond]
    refine ⟨hsort, fun j hj => (hprops j hj).2.1, fun j hj => (hprops j hj).2.2.1,
      fun j hj => (hprops j hj).1, le_of_lt hcond.2, Nat.zero_le _,
      ?_, ?_, List.nodup_nil, ?_, ?_, ?_, ?_, hcount.symm, ⟨rfl, trivial⟩, rfl,
      ?_, ?_, ?_, ?_, ?_⟩
    · dsimp only
      intro j hj
      have := (hprops j hj).2.2.2.1
      have := (hprops j hj).2.2.1
      omega
    · dsimp only
      intro j hj
      have := (hprops j hj).2.2.2.1
      omega
    · dsimp only
      intro i hi
      simp at hi
    · dsimp only
      intro j hji hjlen
      exact ⟨(hprops j hjlen).2.2.2.1, hsort 0 j (Nat.zero_le _) hjlen⟩
    · dsimp only
      intro j hj
      omega
    · dsimp only
      intro j hj
      omega
    · dsimp only
      intro g hg
      simp only [List.mem_singleton] at hg
      subst hg
      exact hcond.2
    · dsimp only
      intro g hg
      simp only [List.mem_singleton] at hg
      subst hg
      exact Or.inl rfl
    · dsimp only
      intro g hg
      simp only [List.mem_singleton] at hg
      subst hg
      intro hne
      exact absurd rfl hne
    · dsimp only
      simp [sumExec, hdef]
    · dsimp only
      intro j hjlen hrem
      have := (hprops j hjlen).2.2.2.1
      have := (hprops j hjlen).2.2.1
      omega
  · rw [if_neg hcond]
    refine ⟨hsort, fun j hj => (hprops j hj).2.1, fun j hj => (hprops j hj).2.2.1,
      fun j hj => (hprops j hj).1, le_refl 0, Nat.zero_le _,
      ?_, ?_, List.nodup_nil, ?_, ?_, ?_, ?_, hcount.symm, trivial, rfl,
      ?_, ?_, ?_, ?_, ?_⟩
    · dsimp only
      intro j hj
      have := (hprops j hj).2.2.2.1
      have := (hprops j hj).2.2.1
      omega
    · dsimp only
      intro j hj
      have := (hprops j hj).2.2.2.1
      omega
    · dsimp only
      intro i hi
      simp at hi
    · dsimp only
      intro j hji hjlen
      exact ⟨(hprops j hjlen).2.2.2.1, (hprops j hjlen).2.1⟩
    · dsimp only
      intro j hj
      omega
    · dsimp only
      intro j hj
      omega
    · dsimp only
      intro g hg
      simp at hg
    · dsimp only
      intro g hg
      simp at hg
    · dsimp only
      intro g hg
      simp at hg
    · dsimp only
      simp [sumExec, hdef]
    · dsimp only
      intro j hjlen hrem
      have := (hprops j hjlen).2.2.2.1
      have := (hprops j hjlen).2.2.1
      omega

/-- Invariant preservation for the arrival-admission sweep at the top of the
`preemptive_priority` loop. -/
theorem ppsAdmit_inv (s : PPSState) (hinv : PPSInv s) :
    PPSInv ⟨s.procs, (admitLe s.procs s.time s.idx s.pq).1, s.time, s.completed,
      (admitLe s.procs s.time s.idx s.pq).2, s.gantt⟩ ∧
    s.idx ≤ (admitLe s.procs s.time s.idx s.pq).2 := by
  obtain ⟨A1, A2, A3, A4, A5⟩ := admitLe_spec s.procs s.time s.idx s.pq hinv.idx_le
  refine ⟨⟨hinv.sorted_arr, hinv.arr_nonneg, hinv.burst_pos, hinv.pid_pos,
    hinv.time_nonneg, A2, hinv.rem_nonneg, hinv.rem_le, ?_, ?_, ?_, ?_, ?_,
    hinv.completed_eq, hinv.gantt_chain, hinv.gantt_end, hinv.gantt_pos,
    hinv.gantt_pid, hinv.gantt_unit, hinv.busy_eq, hinv.finalized⟩, A1⟩
  · dsimp only
    rw [A3]
    apply List.Nodup.append hinv.q_nodup (by simp [List.nodup_range'])
    intro a ha ha'
    have := (hinv.q_mem a ha).1
    rw [List.mem_range'_1] at ha'
    omega
  · dsimp only
    intro x hx
    rw [A3] at hx
    rcases List.mem_append.mp hx with hxo | hxw
    · obtain ⟨h1, h2, h3⟩ := hinv.q_mem x hxo
      exact ⟨by omega, h2, h3⟩
    · rw [List.mem_range'_1] at hxw
      have hxlen : x < s.procs.length := by omega
      have hu := hinv.unadmitted x (by omega) hxlen
      have hb := hinv.burst_pos x hxlen
      exact ⟨by omega, by omega, A4 x (by omega) (by omega)⟩
  · dsimp only
    intro j hji hjlen
    have hu := hinv.unadmitted j (by omega) hjlen
    refine ⟨hu.1, ?_⟩
    rcases Nat.eq_or_lt_of_le hji with heq | hlt
    · have := A5 (by omega)
      omega
    · have hA5 := A5 (by omega)
      have hmono := hinv.sorted_arr ((admitLe s.procs s.time s.idx s.pq).2) j
        (by omega) hjlen
      omega
  · dsimp only
    intro j hj
    by_cases hjold : j < s.idx
    · rcases hinv.partitioned j hjold with hmem | h0
      · refine Or.inl ?_
        rw [A3]
        exact List.mem_append.mpr (Or.inl hmem)
      · exact Or.inr h0
    · refine Or.inl ?_
      rw [A3]
      refine List.mem_append.mpr (Or.inr ?_)
      rw [List.mem_range'_1]
      omega
  · dsimp only
    intro j hj
    by_cases hjold : j < s.idx
    · exact hinv.executed j hjold
    · have hjlen : j < s.procs.length := by omega
      have hu := hinv.unadmitted j (by omega) hjlen
      have hA4 := A4 j (by omega) hj
      omega

/-- Invariant preservation for the idle advance of the `preemptive_priority`
loop (empty heap, arrivals remaining). -/
theorem ppsIdle_inv (s : PPSState) (hinv : PPSInv s) (hpq : s.pq = [])
    (hidx : s.idx < s.procs.length)
    (hstrict : s.time < (pget s.procs s.idx).arrival) :
    PPSInv ⟨s.procs, s.pq, (pget s.procs s.idx).arrival, s.completed, s.idx,
      s.gantt ++ [⟨-1, s.time, (pget s.procs s.idx).arrival⟩]⟩ := by
  refine ⟨hinv.sorted_arr, hinv.arr_nonneg, hinv.burst_pos, hinv.pid_pos,
    le_trans hinv.time_nonneg (le_of_lt hstrict), hinv.idx_le,
    hinv.rem_nonneg, hinv.rem_le, hinv.q_nodup, ?_, ?_, hinv.partitioned, ?_,
    hinv.completed_eq, ?_, ?_, ?_, ?_, ?_, ?_, hinv.finalized⟩
  · dsimp only
    intro x hx
    rw [hpq] at hx
    simp at hx
  · dsimp only
    intro j hji hjlen
    have hu := hinv.unadmitted j hji hjlen
    exact ⟨hu.1, hinv.sorted_arr s.idx j hji hjlen⟩
  · dsimp only
    intro j hj
    have := hinv.executed j hj
    omega
  · dsimp only
    exact (chainFrom_append 0 s.gantt _).mpr
      ⟨hinv.gantt_chain, by rw [hinv.gantt_end]; exact ⟨rfl, trivial⟩⟩
  · dsimp only
    rw [ganttEnd_append, hinv.gantt_end]
    rfl
  · dsimp only
    intro g hg
    rcases List.mem_append.mp hg with hold | hnew
    · exact hinv.gantt_pos g hold
    · simp only [List.mem_singleton] at hnew
      subst hnew
      exact hstrict
  · dsimp only
    intro g hg
    rcases List.mem_append.mp hg with hold | hnew
    · exact hinv.gantt_pid g hold
    · simp only [List.mem_singleton] at hnew
      subst hnew
      exact Or.inl rfl
  · dsimp only
    intro g hg
    rcases List.mem_append.mp hg with hold | hnew
    · exact hinv.gantt_unit g hold
    · simp only [List.mem_singleton] at hnew
      subst hnew
      intro hne
      exact absurd rfl hne
  · dsimp only
    rw [sumExec_append, hinv.busy_eq]
    simp [sumExec]

/-- Invariant preservation for the push-back branch of `ppsDispatch`
(the popped process still has remaining work).  `cur` and `rest` come from
`pqPopMin`, so membership in the old heap is characterized by `hmem_iff`. -/
theorem ppsStepInv_requeue (s : PPSState) (hinv : PPSInv s) (cur : Nat) (rest : List Nat)
    (hcur_idx : cur < s.idx) (hcur_rem : 0 < (pget s.procs cur).remaining)
    (hcur_arr : (pget s.procs cur).arrival ≤ s.time)
    (hrest_mem : ∀ x ∈ rest, x < s.idx ∧ 0 < (pget s.procs x).remaining ∧
      (pget s.procs x).arrival ≤ s.time)
    (hrest_nodup : rest.Nodup) (hcur_notin : cur ∉ rest)
    (hmem_iff : ∀ j, j ∈ s.pq → j = cur ∨ j ∈ rest)
    (p' : Process) (gpid : Int)
    (hgpid : gpid = (pget s.procs cur).pid)
    (hpid : p'.pid = (pget s.procs cur).pid)
    (harr : p'.arrival = (pget s.procs cur).arrival)
    (hburst : p'.burst = (pget s.procs cur).burst)
    (hrem : p'.remaining = (pget s.procs cur).remaining - 1)
    (hrempos : 0 < p'.remaining) :
    PPSInv ⟨s.procs.set cur p',
      (admitLe s.procs (s.time + 1) s.idx rest).1 ++ [cur],
      s.time + 1, s.completed,
      (admitLe s.procs (s.time + 1) s.idx rest).2,
      s.gantt ++ [⟨gpid, s.time, s.time + 1⟩]⟩ := by
  have hi_len : cur < s.procs.length := lt_of_lt_of_le hcur_idx hinv.idx_le
  obtain ⟨A1, A2, A3, A4, A5⟩ :=
    admitLe_spec s.procs (s.time + 1) s.idx rest hinv.idx_le
  have hlenset : (s.procs.set cur p').length = s.procs.length :=
    List.length_set s.procs cur p'
  have hpget_ne : ∀ j, cur ≠ j → pget (s.procs.set cur p') j = pget s.procs j :=
    fun j hij => pget_set_ne s.procs cur j p' hij
  have hpget_i : pget (s.procs.set cur p') cur = p' := pget_set_self s.procs cur p' hi_len
  have harr_all : ∀ j, (pget (s.procs.set cur p') j).arrival = (pget s.procs j).arrival := by
    intro j
    by_cases h : cur = j
    · rw [← h, hpget_i, harr]
    · rw [hpget_ne j h]
  have hburst_all : ∀ j, (pget (s.procs.set cur p') j).burst = (pget s.procs j).burst := by
    intro j
    by_cases h : cur = j
    · rw [← h, hpget_i, hburst]
    · rw [hpget_ne j h]
  have hpid_all : ∀ j, (pget (s.procs.set cur p') j).pid = (pget s.procs j).pid := by
    intro j
    by_cases h : cur = j
    · rw [← h, hpget_i, hpid]
    · rw [hpget_ne j h]
  refine ⟨?_, ?_, ?_, ?_, ?_, ?_, ?_, ?_, ?_, ?_, ?_, ?_, ?_, ?_, ?_, ?_, ?_, ?_, ?_, ?_, ?_⟩
  · dsimp only
    intro j k hjk hk
    rw [hlenset] at hk
    rw [harr_all, harr_all]
    exact hinv.sorted_arr j k hjk hk
  · dsimp only
    intro j hj
    rw [hlenset] at hj
    rw [harr_all]
    exact hinv.arr_nonneg j hj
  · dsimp only
    intro j hj
    rw [hlenset] at hj
    rw [hburst_all]
    exact hinv.burst_pos j hj
  · dsimp only
    intro j hj
    rw [hlenset] at hj
    rw [hpid_all]
    exact hinv.pid_pos j hj
  · dsimp only
    have := hinv.time_nonneg
    omega
  · dsimp only
    rw [hlenset]
    exact A2
  · dsimp only
    intro j hj
    rw [hlenset] at hj
    by_cases h : cur = j
    · rw [← h, hpget_i, hrem]
      omega
    · rw [hpget_ne j h]
      exact hinv.rem_nonneg j hj
  · dsimp only
    intro j hj
    rw [hlenset] at hj
    by_cases h : cur = j
    · rw [← h, hpget_i, hrem, hburst]
      have := hinv.rem_le cur hi_len
      omega
    · rw [hpget_ne j h]
      exact hinv.rem_le j hj
  · dsimp only
    rw [A3]
    have hwin : (rest ++ List.range' s.idx
        ((admitLe s.procs (s.time + 1) s.idx rest).2 - s.idx)).Nodup := by
      apply List.Nodup.append hrest_nodup (by simp [List.nodup_range'])
      intro a ha ha'
      have := (hrest_mem a ha).1
      rw [List.mem_range'_1] at ha'
      omega
    apply List.Nodup.append hwin (List.nodup_singleton cur)
    intro a ha ha'
    simp only [List.mem_singleton] at ha'
    subst ha'
    rcases List.mem_append.mp ha with h1 | h2
    · exact hcur_notin h1
    · rw [List.mem_range'_1] at h2
      omega
  · dsimp only
    intro x hx
    rcases List.mem_append.mp hx with hx1 | hx2
    · rw [A3] at hx1
      rcases List.mem_append.mp hx1 with hxr | hxw
      · obtain ⟨hx_idx, hx_rem, hx_arr⟩ := hrest_mem x hxr
        have hxi : cur ≠ x := fun h => hcur_notin (h ▸ hxr)
        refine ⟨by omega, ?_, ?_⟩
        · rw [hpget_ne x hxi]
          exact hx_rem
        · rw [harr_all x]
          omega
      · rw [List.mem_range'_1] at hxw
        have hxlen : x < s.procs.length := by omega
        have hu := hinv.unadmitted x (by omega) hxlen
        have hb := hinv.burst_pos x hxlen
        have hxi : cur ≠ x := by omega
        refine ⟨by omega, ?_, ?_⟩
        · rw [hpget_ne x hxi]
          omega
        · rw [harr_all x]
          exact A4 x (by omega) (by omega)
    · simp only [List.mem_singleton] at hx2
      refine ⟨by omega, ?_, ?_⟩
      · rw [hx2, hpget_i]
        exact hrempos
      · rw [hx2, harr_all cur]
        omega
  · dsimp only
    intro j hji hjlen
    rw [hlenset] at hjlen
    have hij : cur ≠ j := by omega
    have hu := hinv.unadmitted j (by omega) hjlen
    constructor
    · rw [hpget_ne j hij]
      exact hu.1
    · rw [harr_all j]
      have hA5 := A5 (by omega)
      have hmono := hinv.sorted_arr ((admitLe s.procs (s.time + 1) s.idx rest).2) j
        hji hjlen
      omega
  · dsimp only
    intro j hj
    by_cases hjold : j < s.idx
    · rcases hinv.partitioned j hjold with hmem | hrem0
      · rcases hmem_iff j hmem with rfl | hmemr
        · exact Or.inl (List.mem_append.mpr (Or.inr (List.mem_singleton.mpr rfl)))
        · refine Or.inl (List.mem_append.mpr (Or.inl ?_))
          rw [A3]
          exact List.mem_append.mpr (Or.inl hmemr)
      · have hij : cur ≠ j := by
          intro h
          rw [← h] at hrem0
          omega
        refine Or.inr ?_
        rw [hpget_ne j hij]
        exact hrem0
    · refine Or.inl (List.mem_append.mpr (Or.inl ?_))
      rw [A3]
      refine List.mem_append.mpr (Or.inr ?_)
      rw [List.mem_range'_1]
      omega
  · dsimp only
    intro j hj
    by_cases hij : cur = j
    · rw [← hij, hpget_i, hburst, harr, hrem]
      have := hinv.executed cur hcur_idx
      omega
    · by_cases hjold : j < s.idx
      · rw [hpget_ne j hij]
        have := hinv.executed j hjold
        omega
      · have hjlen : j < s.procs.length := by omega
        have hu := hinv.unadmitted j (by omega) hjlen
        have hA4 := A4 j (by omega) hj
        rw [hpget_ne j hij]
        omega
  · dsimp only
    have hc := countP_set_add (fun p => p.remaining == 0) s.procs cur p' hi_len
    have hold : ¬((fun p => p.remaining == 0) (pget s.procs cur) = true) := by
      simp only [beq_iff_eq]
      omega
    have hnew : ¬((fun p => p.remaining == 0) p' = true) := by
      simp only [beq_iff_eq]
      omega
    rw [if_neg hold, if_neg hnew] at hc
    rw [hinv.completed_eq]
    omega
  · dsimp only
    exact (chainFrom_append 0 s.gantt _).mpr
      ⟨hinv.gantt_chain, by rw [hinv.gantt_end]; exact ⟨rfl, trivial⟩⟩
  · dsimp only
    rw [ganttEnd_append, hinv.gantt_end]
    rfl
  · dsimp only
    intro g hg
    rcases List.mem_append.mp hg with hold | hnew
    · exact hinv.gantt_pos g hold
    · simp only [List.mem_singleton] at hnew
      subst hnew
      dsimp only
      omega
  · dsimp only
    intro g hg
    rcases List.mem_append.mp hg with hold | hnew
    · exact hinv.gantt_pid g hold
    · simp only [List.mem_singleton] at hnew
      subst hnew
      refine Or.inr ?_
      dsimp only
      rw [hgpid]
      exact hinv.pid_pos cur hi_len
  · dsimp only
    intro g hg
    rcases List.mem_append.mp hg with hold | hnew
    · exact hinv.gantt_unit g hold
    · simp only [List.mem_singleton] at hnew
      subst hnew
      intro _
      rfl
  · dsimp only
    rw [sumExec_append, hinv.busy_eq, totalDeficit_set s.procs cur p' hi_len]
    have hne : gpid ≠ -1 := by
      rw [hgpid]
      have := hinv.pid_pos cur hi_len
      omega
    simp only [sumExec, if_neg hne]
    rw [hburst, hrem]
    ring
  · dsimp only
    intro j hjlen hrem0
    rw [hlenset] at hjlen
    have hij : cur ≠ j := by
      intro h
      rw [← h, hpget_i] at hrem0
      omega
    rw [hpget_ne j hij] at hrem0 ⊢
    exact hinv.finalized j hjlen hrem0

/-- Invariant preservation for the finalize branch of `ppsDispatch`. -/
theorem ppsStepInv_finalize (s : PPSState) (hinv : PPSInv s) (cur : Nat) (rest : List Nat)
    (hcur_idx : cur < s.idx) (hcur_rem : 0 < (pget s.procs cur).remaining)
    (hcur_arr : (pget s.procs cur).arrival ≤ s.time)
    (hrest_mem : ∀ x ∈ rest, x < s.idx ∧ 0 < (pget s.procs x).remaining ∧
      (pget s.procs x).arrival ≤ s.time)
    (hrest_nodup : rest.Nodup) (hcur_notin : cur ∉ rest)
    (hmem_iff : ∀ j, j ∈ s.pq → j = cur ∨ j ∈ rest)
    (p' : Process) (gpid : Int)
    (hgpid : gpid = (pget s.procs cur).pid)
    (hpid : p'.pid = (pget s.procs cur).pid)
    (harr : p'.arrival = (pget s.procs cur).arrival)
    (hburst : p'.burst = (pget s.procs cur).burst)
    (hrem : p'.remaining = (pget s.procs cur).remaining - 1)
    (hrem0 : p'.remaining = 0)
    (hcomp : p'.completion_time = s.time + 1)
    (htat : p'.turnaround_time = (s.time + 1) - p'.arrival)
    (hwt : p'.waiting_time = (s.time + 1) - p'.arrival - p'.burst) :
    PPSInv ⟨s.procs.set cur p',
      (admitLe s.procs (s.time + 1) s.idx rest).1,
      s.time + 1, s.completed + 1,
      (admitLe s.procs (s.time + 1) s.idx rest).2,
      s.gantt ++ [⟨gpid, s.time, s.time + 1⟩]⟩ := by
  have hi_len : cur < s.procs.length := lt_of_lt_of_le hcur_idx hinv.idx_le
  obtain ⟨A1, A2, A3, A4, A5⟩ :=
    admitLe_spec s.procs (s.time + 1) s.idx rest hinv.idx_le
  have hlenset : (s.procs.set cur p').length = s.procs.length :=
    List.length_set s.procs cur p'
  have hpget_ne : ∀ j, cur ≠ j → pget (s.procs.set cur p') j = pget s.procs j :=
    fun j hij => pget_set_ne s.procs cur j p' hij
  have hpget_i : pget (s.procs.set cur p') cur = p' := pget_set_self s.procs cur p' hi_len
  have harr_all : ∀ j, (pget (s.procs.set cur p') j).arrival = (pget s.procs j).arrival := by
    intro j
    by_cases h : cur = j
    · rw [← h, hpget_i, harr]
    · rw [hpget_ne j h]
  have hburst_all : ∀ j, (pget (s.procs.set cur p') j).burst = (pget s.procs j).burst := by
    intro j
    by_cases h : cur = j
    · rw [← h, hpget_i, hburst]
    · rw [hpget_ne j h]
  have hpid_all : ∀ j, (pget (s.procs.set cur p') j).pid = (pget s.procs j).pid := by
    intro j
    by_cases h : cur = j
    · rw [← h, hpget_i, hpid]
    · rw [hpget_ne j h]
  refine ⟨?_, ?_, ?_, ?_, ?_, ?_, ?_, ?_, ?_, ?_, ?_, ?_, ?_, ?_, ?_, ?_, ?_, ?_, ?_, ?_, ?_⟩
  · dsimp only
    intro j k hjk hk
    rw [hlenset] at hk
    rw [harr_all, harr_all]
    exact hinv.sorted_arr j k hjk hk
  · dsimp only
    intro j hj
    rw [hlenset] at hj
    rw [harr_all]
    exact hinv.arr_nonneg j hj
  · dsimp only
    intro j hj
    rw [hlenset] at hj
    rw [hburst_all]
    exact hinv.burst_pos j hj
  · dsimp only
    intro j hj
    rw [hlenset] at hj
    rw [hpid_all]
    exact hinv.pid_pos j hj
  · dsimp only
    have := hinv.time_nonneg
    omega
  · dsimp only
    rw [hlenset]
    exact A2
  · dsimp only
    intro j hj
    rw [hlenset] at hj
    by_cases h : cur = j
    · rw [← h, hpget_i, hrem]
      omega
    · rw [hpget_ne j h]
      exact hinv.rem_nonneg j hj
  · dsimp only
    intro j hj
    rw [hlenset] at hj
    by_cases h : cur = j
    · rw [← h, hpget_i, hrem, hburst]
      have := hinv.rem_le cur hi_len
      omega
    · rw [hpget_ne j h]
      exact hinv.rem_le j hj
  · dsimp only
    rw [A3]
    apply List.Nodup.append hrest_nodup (by simp [List.nodup_range'])
    intro a ha ha'
    have := (hrest_mem a ha).1
    rw [List.mem_range'_1] at ha'
    omega
  · dsimp only
    intro x hx
    rw [A3] at hx
    rcases List.mem_append.mp hx with hxr | hxw
    · obtain ⟨hx_idx, hx_rem, hx_arr⟩ := hrest_mem x hxr
      have hxi : cur ≠ x := fun h => hcur_notin (h ▸ hxr)
      refine ⟨by omega, ?_, ?_⟩
      · rw [hpget_ne x hxi]
        exact hx_rem
      · rw [harr_all x]
        omega
    · rw [List.mem_range'_1] at hxw
      have hxlen : x < s.procs.length := by omega
      have hu := hinv.unadmitted x (by omega) hxlen
      have hb := hinv.burst_pos x hxlen
      have hxi : cur ≠ x := by omega
      refine ⟨by omega, ?_, ?_⟩
      · rw [hpget_ne x hxi]
        omega
      · rw [harr_all x]
        exact A4 x (by omega) (by omega)
  · dsimp only
    intro j hji hjlen
    rw [hlenset] at hjlen
    have hij : cur ≠ j := by omega
    have hu := hinv.unadmitted j (by omega) hjlen
    constructor
    · rw [hpget_ne j hij]
      exact hu.1
    · rw [harr_all j]
      have hA5 := A5 (by omega)
      have hmono := hinv.sorted_arr ((admitLe s.procs (s.time + 1) s.idx rest).2) j
        hji hjlen
      omega
  · dsimp only
    intro j hj
    by_cases hij : cur = j
    · refine Or.inr ?_
      rw [← hij, hpget_i]
      exact hrem0
    · by_cases hjold : j < s.idx
      · rcases hinv.partitioned j hjold with hmem | hrem0'
        · rcases hmem_iff j hmem with h | hmemr
          · exact absurd h.symm hij
          · refine Or.inl ?_
            rw [A3]
            exact List.mem_append.mpr (Or.inl hmemr)
        · refine Or.inr ?_
          rw [hpget_ne j hij]
          exact hrem0'
      · refine Or.inl ?_
        rw [A3]
        refine List.mem_append.mpr (Or.inr ?_)
        rw [List.mem_range'_1]
        omega
  · dsimp only
    intro j hj
    by_cases hij : cur = j
    · rw [← hij, hpget_i, hburst, harr, hrem]
      have := hinv.executed cur hcur_idx
      omega
    · by_cases hjold : j < s.idx
      · rw [hpget_ne j hij]
        have := hinv.executed j hjold
        omega
      · have hjlen : j < s.procs.length := by omega
        have hu := hinv.unadmitted j (by omega) hjlen
        have hA4 := A4 j (by omega) hj
        rw [hpget_ne j hij]
        omega
  · dsimp only
    have hc := countP_set_add (fun p => p.remaining == 0) s.procs cur p' hi_len
    have hold : ¬((fun p => p.remaining == 0) (pget s.procs cur) = true) := by
      simp only [beq_iff_eq]
      omega
    have hnew : ((fun p => p.remaining == 0) p' = true) := by
      simp only [beq_iff_eq]
      omega
    rw [if_neg hold, if_pos hnew] at hc
    rw [hinv.completed_eq]
    omega
  · dsimp only
    exact (chainFrom_append 0 s.gantt _).mpr
      ⟨hinv.gantt_chain, by rw [hinv.gantt_end]; exact ⟨rfl, trivial⟩⟩
  · dsimp only
    rw [ganttEnd_append, hinv.gantt_end]
    rfl
  · dsimp only
    intro g hg
    rcases List.mem_append.mp hg with hold | hnew
    · exact hinv.gantt_pos g hold
    · simp only [List.mem_singleton] at hnew
      subst hnew
      dsimp only
      omega
  · dsimp only
    intro g hg
    rcases List.mem_append.mp hg with hold | hnew
    · exact hinv.gantt_pid g hold
    · simp only [List.mem_singleton] at hnew
      subst hnew
      refine Or.inr ?_
      dsimp only
      rw [hgpid]
      exact hinv.pid_pos cur hi_len
  · dsimp only
    intro g hg
    rcases List.mem_append.mp hg with hold | hnew
    · exact hinv.gantt_unit g hold
    · simp only [List.mem_singleton] at hnew
      subst hnew
      intro _
      rfl
  · dsimp only
    rw [sumExec_append, hinv.busy_eq, totalDeficit_set s.procs cur p' hi_len]
    have hne : gpid ≠ -1 := by
      rw [hgpid]
      have := hinv.pid_pos cur hi_len
      omega
    simp only [sumExec, if_neg hne]
    rw [hburst, hrem]
    ring
  · dsimp only
    intro j hjlen hrem0'
    rw [hlenset] at hjlen
    by_cases hij : cur = j
    · rw [← hij, hpget_i]
      have hex := hinv.executed cur hcur_idx
      refine ⟨?_, ?_, ?_⟩
      · rw [hcomp, harr, hburst]
        omega
      · rw [htat, hcomp]
      · rw [hwt, htat]
    · rw [hpget_ne j hij] at hrem0' ⊢
      exact hinv.finalized j hjlen hrem0'

theorem ppsDispatch_step (s : PPSState) (hinv : PPSInv s) (cur : Nat) (rest : List Nat)
    (hpop : pqPopMin s.procs s.pq = some (cur, rest)) :
    PPSInv (ppsDispatch cur rest s) ∧
    sameStatic s.procs (ppsDispatch cur rest s).procs ∧
    s.idx ≤ (ppsDispatch cur rest s).idx ∧
    (ppsDispatch cur rest s).procs.length = s.procs.length ∧
    totalRemaining (ppsDispatch cur rest s).procs ≤ totalRemaining s.procs - 1 := by
  have hperm := pqPopMin_perm s.procs s.pq cur rest hpop
  have hcur_mem : cur ∈ s.pq := hperm.mem_iff.mpr (List.mem_cons_self cur rest)
  obtain ⟨hcur_idx, hcur_rem, hcur_arr⟩ := hinv.q_mem cur hcur_mem
  have hi_len : cur < s.procs.length := lt_of_lt_of_le hcur_idx hinv.idx_le
  have hnodup2 : (cur :: rest).Nodup := hperm.nodup hinv.q_nodup
  have hcur_notin : cur ∉ rest := (List.nodup_cons.mp hnodup2).1
  have hrest_nodup : rest.Nodup := (List.nodup_cons.mp hnodup2).2
  have hrest_mem : ∀ x ∈ rest, x < s.idx ∧ 0 < (pget s.procs x).remaining ∧
      (pget s.procs x).arrival ≤ s.time :=
    fun x hx => hinv.q_mem x (hperm.mem_iff.mpr (List.mem_cons_of_mem cur hx))
  have hmem_iff : ∀ j, j ∈ s.pq → j = cur ∨ j ∈ rest := by
    intro j hj
    exact List.mem_cons.mp (hperm.mem_iff.mp hj)
  obtain ⟨A1, A2, A3, A4, A5⟩ :=
    admitLe_spec s.procs (s.time + 1) s.idx rest hinv.idx_le
  unfold ppsDispatch
  dsimp only
  split
  · next hbr =>
    refine ⟨?_, ?_, ?_, ?_, ?_⟩
    · exact ppsStepInv_requeue s hinv cur rest hcur_idx hcur_rem hcur_arr
        hrest_mem hrest_nodup hcur_notin hmem_iff _ _
        (markStarted_pid _ _) (markStarted_pid _ _) (markStarted_arrival _ _)
        (markStarted_burst _ _) (by dsimp only; rw [markStarted_remaining]) hbr
    · exact sameStatic_set s.procs cur _ hi_len (markStarted_pid _ _)
        (markStarted_arrival _ _) (markStarted_burst _ _) (markStarted_priority _ _)
    · exact A1
    · exact List.length_set s.procs cur _
    · rw [totalRemaining_set s.procs cur _ hi_len]
      dsimp only
      rw [markStarted_remaining]
      omega
  · next hbr =>
    rw [markStarted_remaining] at hbr
    refine ⟨?_, ?_, ?_, ?_, ?_⟩
    · exact ppsStepInv_finalize s hinv cur rest hcur_idx hcur_rem hcur_arr
        hrest_mem hrest_nodup hcur_notin hmem_iff _ _
        (markStarted_pid _ _) (markStarted_pid _ _) (markStarted_arrival _ _)
        (markStarted_burst _ _) (by dsimp only; rw [markStarted_remaining])
        (by dsimp only; rw [markStarted_remaining]; omega)
        rfl (by dsimp only) (by dsimp only)
    · exact sameStatic_set s.procs cur _ hi_len (markStarted_pid _ _)
        (markStarted_arrival _ _) (markStarted_burst _ _) (markStarted_priority _ _)
    · exact A1
    · exact List.length_set s.procs cur _
    · rw [totalRemaining_set s.procs cur _ hi_len]
      dsimp only
      rw [markStarted_remaining]
      omega

/-- The `preemptive_priority` loop has reached its exit. -/
def ppsStopped (s : PPSState) : Prop :=
  s.procs.length ≤ s.completed ∨ (s.pq = [] ∧ s.procs.length ≤ s.idx)

theorem ppsLoop_master :
    ∀ (fuel : Nat) (s : PPSState), PPSInv s → ppsMeasure s < fuel →
      PPSInv (ppsLoop fuel s) ∧ ppsStopped (ppsLoop fuel s) ∧
      sameStatic s.procs (ppsLoop fuel s).procs := by
  intro fuel
  induction fuel with
  | zero =>
    intro s hinv hm
    omega
  | succ fuel ih =>
    intro s hinv hm
    by_cases hguard : s.completed < s.procs.length
    · obtain ⟨hinv1, hidxle⟩ := ppsAdmit_inv s hinv
      obtain ⟨A1, A2, A3, A4, A5⟩ :=
        admitLe_spec s.procs s.time s.idx s.pq hinv.idx_le
      simp only [ppsLoop]
      rw [if_pos hguard]
      cases hpop : pqPopMin s.procs (admitLe s.procs s.time s.idx s.pq).1 with
      | none =>
        dsimp only
        have hpq1 : (admitLe s.procs s.time s.idx s.pq).1 = [] :=
          (pqPopMin_none _ _).mp hpop
        have hwin0 : (admitLe s.procs s.time s.idx s.pq).2 = s.idx := by
          rw [hpq1] at A3
          have : List.range' s.idx ((admitLe s.procs s.time s.idx s.pq).2 - s.idx) = [] := by
            cases hA3 : (List.range' s.idx ((admitLe s.procs s.time s.idx s.pq).2 - s.idx)) with
            | nil => rfl
            | cons a l =>
              rw [hA3] at A3
              simp at A3
          simp only [List.range'_eq_nil] at this
          omega
        by_cases hidx : (admitLe s.procs s.time s.idx s.pq).2 < s.procs.length
        · rw [if_pos hidx]
          have hstrict : s.time
              < (pget s.procs ((admitLe s.procs s.time s.idx s.pq).2)).arrival :=
            A5 hidx
          have hinv2 := ppsIdle_inv
            ⟨s.procs, (admitLe s.procs s.time s.idx s.pq).1, s.time, s.completed,
              (admitLe s.procs s.time s.idx s.pq).2, s.gantt⟩
            hinv1 hpq1 hidx hstrict
          rw [if_pos hstrict]
          have hm2 : ppsMeasure ⟨s.procs, (admitLe s.procs s.time s.idx s.pq).1,
              (pget s.procs ((admitLe s.procs s.time s.idx s.pq).2)).arrival,
              s.completed, (admitLe s.procs s.time s.idx s.pq).2,
              s.gantt ++ [⟨-1, s.time,
                (pget s.procs ((admitLe s.procs s.time s.idx s.pq).2)).arrival⟩]⟩
              < fuel := by
            have hb2 : ppsMeasure ⟨s.procs, (admitLe s.procs s.time s.idx s.pq).1,
                (pget s.procs ((admitLe s.procs s.time s.idx s.pq).2)).arrival,
                s.completed, (admitLe s.procs s.time s.idx s.pq).2,
                s.gantt ++ [⟨-1, s.time,
                  (pget s.procs ((admitLe s.procs s.time s.idx s.pq).2)).arrival⟩]⟩
                = 2 * ((totalRemaining s.procs).toNat
                  + (s.procs.length - (admitLe s.procs s.time s.idx s.pq).2)) := by
              unfold ppsMeasure
              dsimp only
              rw [if_pos]
              · omega
              · exact ⟨hidx, le_refl _⟩
            have hb1 : ppsMeasure s
                = 2 * ((totalRemaining s.procs).toNat
                  + (s.procs.length - s.idx)) + 1 := by
              unfold ppsMeasure
              rw [if_neg]
              rintro ⟨h1, h2⟩
              rw [← hwin0] at h2
              omega
            rw [hb2]
            rw [hb1] at hm
            rw [hwin0]
            omega
          obtain ⟨h1, h2, h3⟩ := ih _ hinv2 hm2
          exact ⟨h1, h2, h3⟩
        · rw [if_neg hidx]
          refine ⟨hinv1, Or.inr ⟨hpq1, by dsimp only; omega⟩, sameStatic_refl s.procs⟩
      | some cr =>
        obtain ⟨cur, rest⟩ := cr
        dsimp only
        obtain ⟨h1, h2, h3, h4, h5⟩ := ppsDispatch_step
          ⟨s.procs, (admitLe s.procs s.time s.idx s.pq).1, s.time, s.completed,
            (admitLe s.procs s.time s.idx s.pq).2, s.gantt⟩
          hinv1 cur rest hpop
        dsimp only at h3 h4 h5
        have hm3 : ppsMeasure (ppsDispatch cur rest
            ⟨s.procs, (admitLe s.procs s.time s.idx s.pq).1, s.time, s.completed,
              (admitLe s.procs s.time s.idx s.pq).2, s.gantt⟩) < fuel := by
          have hnn3 : 0 ≤ totalRemaining (ppsDispatch cur rest
              ⟨s.procs, (admitLe s.procs s.time s.idx s.pq).1, s.time, s.completed,
                (admitLe s.procs s.time s.idx s.pq).2, s.gantt⟩).procs := by
            apply totalRemaining_nonneg
            exact forall_mem_of_forall_pget _ h1.rem_nonneg
          have hnn0 : 0 ≤ totalRemaining s.procs := by
            apply totalRemaining_nonneg
            exact forall_mem_of_forall_pget _ hinv.rem_nonneg
          have hub : ppsMeasure (ppsDispatch cur rest
              ⟨s.procs, (admitLe s.procs s.time s.idx s.pq).1, s.time, s.completed,
                (admitLe s.procs s.time s.idx s.pq).2, s.gantt⟩)
              ≤ 2 * ((totalRemaining (ppsDispatch cur rest
                ⟨s.procs, (admitLe s.procs s.time s.idx s.pq).1, s.time, s.completed,
                  (admitLe s.procs s.time s.idx s.pq).2, s.gantt⟩).procs).toNat
                + ((ppsDispatch cur rest
                ⟨s.procs, (admitLe s.procs s.time s.idx s.pq).1, s.time, s.completed,
                  (admitLe s.procs s.time s.idx s.pq).2, s.gantt⟩).procs.length
                  - (ppsDispatch cur rest
                ⟨s.procs, (admitLe s.procs s.time s.idx s.pq).1, s.time, s.completed,
                  (admitLe s.procs s.time s.idx s.pq).2, s.gantt⟩).idx)) + 1 := by
            unfold ppsMeasure
            split <;> omega
          have hlb : 2 * ((totalRemaining s.procs).toNat
              + (s.procs.length - s.idx)) ≤ ppsMeasure s := by
            unfold ppsMeasure
            split <;> omega
          have hidxle3 : s.idx ≤ (ppsDispatch cur rest
              ⟨s.procs, (admitLe s.procs s.time s.idx s.pq).1, s.time, s.completed,
                (admitLe s.procs s.time s.idx s.pq).2, s.gantt⟩).idx := by
            exact le_trans hidxle h3
          rw [h4] at hub
          omega
        obtain ⟨g1, g2, g3⟩ := ih _ h1 hm3
        exact ⟨g1, g2, sameStatic_trans h2 g3⟩
    · have hred : ppsLoop (fuel+1) s = s := by
        simp only [ppsLoop]
        rw [if_neg hguard]
      rw [hred]
      exact ⟨hinv, Or.inl (by omega), sameStatic_refl s.procs⟩

theorem ppsInitCore_procs (procs : List Process) : (ppsInitCore procs).procs = procs := by
  unfold ppsInitCore
  split <;> rfl

theorem admitLe_saturated (procs : List Process) (t : Int) (idx : Nat) (q : List Nat)
    (h : procs.length ≤ idx) : admitLe procs t idx q = (q, idx) := by
  unfold admitLe
  rw [show procs.length - idx = 0 from by omega]
  rfl

theorem ppsLoop_stopped_fix (s : PPSState) (hstop : ppsStopped s) :
    ∀ fuel, ppsLoop fuel s = s := by
  intro fuel
  cases fuel with
  | zero => rfl
  | succ f =>
    simp only [ppsLoop]
    by_cases hg : s.completed < s.procs.length
    · rcases hstop with h | ⟨hpq, hidx⟩
      · omega
      · rw [if_pos hg, admitLe_saturated s.procs s.time s.idx s.pq (by omega)]
        have hnone : pqPopMin s.procs (s.pq, s.idx).1 = none :=
          (pqPopMin_none _ _).mpr hpq
        rw [hnone]
        dsimp only
        rw [if_neg (by omega)]
    · rw [if_neg hg]

theorem ppsLoop_add :
    ∀ (fuel : Nat) (s : PPSState) (m : Nat),
      ppsStopped (ppsLoop fuel s) →
      ppsLoop (fuel + m) s = ppsLoop fuel s := by
  intro fuel
  induction fuel with
  | zero =>
    intro s m hstop
    have h0 : (0 : Nat) + m = m := by omega
    rw [h0]
    exact ppsLoop_stopped_fix s hstop m
  | succ f ih =>
    intro s m hstop
    have hm : f + 1 + m = (f + m) + 1 := by omega
    rw [hm]
    by_cases hg : s.completed < s.procs.length
    · have e1 : ∀ g : Nat, ppsLoop (g+1) s
          = (match pqPopMin s.procs (admitLe s.procs s.time s.idx s.pq).1 with
            | none =>
              if (admitLe s.procs s.time s.idx s.pq).2 < s.procs.length then
                ppsLoop g (if s.time < (pget s.procs ((admitLe s.procs s.time s.idx s.pq).2)).arrival then
                    ⟨s.procs, (admitLe s.procs s.time s.idx s.pq).1,
                      (pget s.procs ((admitLe s.procs s.time s.idx s.pq).2)).arrival,
                      s.completed, (admitLe s.procs s.time s.idx s.pq).2,
                      s.gantt ++ [⟨-1, s.time,
                        (pget s.procs ((admitLe s.procs s.time s.idx s.pq).2)).arrival⟩]⟩
                  else ⟨s.procs, (admitLe s.procs s.time s.idx s.pq).1, s.time,
                    s.completed, (admitLe s.procs s.time s.idx s.pq).2, s.gantt⟩)
              else ⟨s.procs, (admitLe s.procs s.time s.idx s.pq).1, s.time,
                s.completed, (admitLe s.procs s.time s.idx s.pq).2, s.gantt⟩
            | some (cur, rest) =>
              ppsLoop g (ppsDispatch cur rest
                ⟨s.procs, (admitLe s.procs s.time s.idx s.pq).1, s.time,
                  s.completed, (admitLe s.procs s.time s.idx s.pq).2, s.gantt⟩)) := by
        intro g
        simp only [ppsLoop]
        rw [if_pos hg]
      rw [e1 f] at hstop ⊢
      rw [e1 (f + m)]
      cases hpop : pqPopMin s.procs (admitLe s.procs s.time s.idx s.pq).1 with
      | none =>
        rw [hpop] at hstop
        dsimp only at hstop ⊢
        by_cases hidx : (admitLe s.procs s.time s.idx s.pq).2 < s.procs.length
        · rw [if_pos hidx] at hstop
          simp only [if_pos hidx]
          exact ih _ m hstop
        · simp only [if_neg hidx]
      | some cr =>
        obtain ⟨cur, rest⟩ := cr
        rw [hpop] at hstop
        dsimp only at hstop ⊢
        exact ih _ m hstop
    · have e : ∀ g : Nat, ppsLoop (g+1) s = s := by
        intro g
        simp only [ppsLoop]
        rw [if_neg hg]
      rw [e f, e (f+m)]

theorem ppsStopped_all_done (s : PPSState) (hinv : PPSInv s) (hstop : ppsStopped s) :
    (∀ j, j < s.procs.length → (pget s.procs j).remaining = 0) ∧
    s.completed = s.procs.length := by
  have hcount := hinv.completed_eq
  rcases hstop with hc | ⟨hq, hidx⟩
  · have hle : s.procs.countP (fun p => p.remaining == 0) ≤ s.procs.length :=
      List.countP_le_length _
    have hceq : s.procs.countP (fun p => p.remaining == 0) = s.procs.length := by omega
    have hall := List.countP_eq_length.mp hceq
    refine ⟨?_, by omega⟩
    intro j hj
    have := hall (pget s.procs j) (pget_mem s.procs j hj)
    simpa using this
  · have hall : ∀ j, j < s.procs.length → (pget s.procs j).remaining = 0 := by
      intro j hj
      rcases hinv.partitioned j (by omega) with hmem | h0
      · rw [hq] at hmem
        simp at hmem
      · exact h0
    refine ⟨hall, ?_⟩
    rw [hcount]
    apply List.countP_eq_length.mpr
    apply forall_mem_of_forall_pget
    intro j hj
    simpa using hall j hj

/-- Summary of a finished Preemptive Priority run on valid input. -/
theorem preemptive_priority_final (ps : List Process) (hv : ValidProcs ps) :
    PPSInv (preemptive_priority ps) ∧
    sameStatic (List.insertionSort ppsBefore ps) (preemptive_priority ps).procs ∧
    (∀ j, j < (preemptive_priority ps).procs.length →
      (pget (preemptive_priority ps).procs j).remaining = 0) ∧
    (preemptive_priority ps).completed = (preemptive_priority ps).procs.length ∧
    (preemptive_priority ps).procs.length = ps.length := by
  have hinv0 : PPSInv (ppsInit ps) := ppsInitCore_inv _ (sortedValid_pps ps hv)
  have hpp : preemptive_priority ps
      = ppsLoop (ppsMeasure (ppsInit ps) + 1) (ppsInit ps) := rfl
  obtain ⟨h1, h2, h3⟩ := ppsLoop_master (ppsMeasure (ppsInit ps) + 1)
    (ppsInit ps) hinv0 (by omega)
  rw [← hpp] at h1 h2 h3
  have hpinit : (ppsInit ps).procs = List.insertionSort ppsBefore ps :=
    ppsInitCore_procs _
  rw [hpinit] at h3
  obtain ⟨hdone, hcomp⟩ := ppsStopped_all_done _ h1 h2
  refine ⟨h1, h3, hdone, hcomp, ?_⟩
  have := h3.1
  rw [← this, (List.perm_insertionSort ppsBefore ps).length_eq]

theorem totalBurst_pos (ps : List Process) (hv : ValidProcs ps) :
    0 < (ps.map (fun p => p.burst)).sum := by
  obtain ⟨hne, _, hprops⟩ := hv
  cases ps with
  | nil => exact absurd rfl hne
  | cons a l =>
    have ha := (hprops a (List.mem_cons_self a l)).2.2.1
    have hl : 0 ≤ (l.map (fun p => p.burst)).sum := by
      apply List.sum_nonneg
      intro x hx
      obtain ⟨p, hp, rfl⟩ := List.mem_map.mp hx
      have := (hprops p (List.mem_cons_of_mem a hp)).2.2.1
      omega
    simp only [List.map, List.sum_cons]
    omega

/-- A process list with a duplicated identity (invalid input for the spec). -/
def dupInput : List Process := [mkProcess 1 0 2 1, mkProcess 1 0 2 1]

/-! ## Claim theorems -/

/-- C1 counterexample: the claim says that on invalid input (here: a
duplicated identity) the engines fail with `InvalidInput` before any
simulation step, producing no partial timeline.  In the code both engines
simulate the duplicated-pid input and produce a non-empty timeline. -/
theorem c1_invalid_input_simulated_counterexample :
    (round_robin dupInput 2).gantt ≠ [] ∧
    (preemptive_priority dupInput).gantt ≠ [] := by
  constructor <;> decide

/-- C1 amended: neither `round_robin` nor `preemptive_priority` validates its
input, and no error value exists in the code; invalid inputs are simulated
anyway.  A list with a duplicated identity runs to completion under both
engines (both copies are scheduled as separate processes), and an empty
process list yields an empty timeline rather than an error. -/
theorem c1_no_input_validation :
    (round_robin dupInput 2).gantt
      = [⟨1, 0, 2⟩, ⟨1, 2, 4⟩] ∧
    (preemptive_priority dupInput).gantt
      = [⟨1, 0, 1⟩, ⟨1, 1, 2⟩, ⟨1, 2, 3⟩, ⟨1, 3, 4⟩] ∧
    (round_robin [] 2).gantt = [] ∧
    (preemptive_priority []).gantt = [] := by
  refine ⟨by decide, by decide, by decide, by decide⟩

/-- C4 counterexample: on the sample process set with quantum 2 the claim
says the timeline begins `[P1:0-2][P2:2-4][P1:4-5]`; the code produces
`[P1:0-2][P2:2-4][P3:4-6]` (P3 arrives at tick 2, exactly when P1's quantum
ends, so it is enqueued before P1's re-enqueue, and a slice of P1 would be
2 ticks long, not 1). -/
theorem c4_sample_trace_counterexample :
    ¬ ((round_robin load_sample 2).gantt.take 3
        = [⟨1, 0, 2⟩, ⟨2, 2, 4⟩, ⟨1, 4, 5⟩]) := by
  decide

/-- C4 amended: Round Robin on the sample set with quantum 2 gives P1 its
first dispatch at tick 0 and produces a timeline beginning
`[P1:0-2][P2:2-4][P3:4-6]`. -/
theorem c4_sample_trace_amended :
    (round_robin load_sample 2).gantt.take 3
      = [⟨1, 0, 2⟩, ⟨2, 2, 4⟩, ⟨3, 4, 6⟩] ∧
    (pget (round_robin load_sample 2).procs 0).pid = 1 ∧
    (pget (round_robin load_sample 2).procs 0).start_time = 0 := by
  refine ⟨by decide, by decide, by decide⟩

/-- C5 counterexample: the claim says CPU utilization and throughput are
guarded to yield 0 when the makespan is 0 (empty timeline).  In
`print_metrics` both divisions are unguarded: with `total_time = 0` the
doubles `100.0*cpu_busy/total_time` and `n/total_time` are non-finite
(NaN and inf), not 0 — modeled as `none`, distinct from `some 0`. -/
theorem c5_unguarded_division_counterexample :
    cpu_util [] (total_time_of []) ≠ some 0 ∧
    throughput 4 (total_time_of []) ≠ some 0 := by
  constructor <;> simp [cpu_util, throughput, fdiv, total_time_of, sumExec]

/-- C5 amended: for a non-zero makespan the metrics are computed by the
claimed formulas, `100 × (sum of execution durations) / makespan` and
`count / makespan`; when the makespan is 0 the divisions are unguarded and
produce a non-finite IEEE value rather than 0 (only the makespan argument
itself, `gantt.empty() ? 0 : gantt.back().end`, is guarded). -/
theorem c5_metrics_division_amended (gantt : List GanttEntry) (n : Nat) (t : Int)
    (h : t ≠ 0) :
    cpu_util gantt t = some (100 * (sumExec gantt : ℚ) / (t : ℚ)) ∧
    throughput n t = some ((n : ℚ) / (t : ℚ)) ∧
    cpu_util gantt 0 = none ∧
    throughput n 0 = none ∧
    total_time_of [] = 0 := by
  have ht : (t : ℚ) ≠ 0 := by
    simpa using h
  refine ⟨?_, ?_, ?_, ?_, rfl⟩
  · unfold cpu_util fdiv
    rw [if_neg ht]
  · unfold throughput fdiv
    rw [if_neg ht]
  · unfold cpu_util fdiv
    rw [if_pos (by norm_num)]
  · unfold throughput fdiv
    rw [if_pos (by norm_num)]

/-- C5 witness: the amended metric equations instantiated at the makespan
22 of the sample Round Robin run. -/
theorem c5_witness :
    (22 : Int) ≠ 0 ∧
    (cpu_util [] (22 : Int) = some (100 * (sumExec [] : ℚ) / ((22 : Int) : ℚ)) ∧
      throughput 4 (22 : Int) = some ((4 : ℚ) / ((22 : Int) : ℚ)) ∧
      cpu_util [] 0 = none ∧
      throughput 4 0 = none ∧
      total_time_of [] = 0) :=
  ⟨by decide, c5_metrics_division_amended [] 4 22 (by decide)⟩

/-- C2: for every valid process set and either engine, the produced timeline
is contiguous and gapless — each interval's end tick is the next interval's
start tick — and the (non-empty) timeline's first interval starts at tick 0. -/
theorem c2_timeline_contiguous_gapless (ps : List Process) (quantum : Int)
    (hv : ValidProcs ps) (hq1 : 1 ≤ quantum) :
    ((∀ i, i + 1 < (round_robin ps quantum).gantt.length →
      ((round_robin ps quantum).gantt.getD i default).stop
        = ((round_robin ps quantum).gantt.getD (i+1) default).start) ∧
    (round_robin ps quantum).gantt ≠ [] ∧
    ((round_robin ps quantum).gantt.headD default).start = 0) ∧
    ((∀ i, i + 1 < (preemptive_priority ps).gantt.length →
      ((preemptive_priority ps).gantt.getD i default).stop
        = ((preemptive_priority ps).gantt.getD (i+1) default).start) ∧
    (preemptive_priority ps).gantt ≠ [] ∧
    ((preemptive_priority ps).gantt.headD default).start = 0) := by
  have hbpos := totalBurst_pos ps hv
  obtain ⟨hinvR, hstatR, hdoneR, _, _⟩ := round_robin_final ps quantum hv hq1
  obtain ⟨hinvP, hstatP, hdoneP, _, _⟩ := preemptive_priority_final ps hv
  have hsumR : sumExec (round_robin ps quantum).gantt
      = (ps.map (fun p => p.burst)).sum := by
    rw [hinvR.busy_eq, totalDeficit_eq_totalBurst _
      (forall_mem_of_forall_pget _ hdoneR), totalBurst_sameStatic _ _ hstatR,
      ((List.perm_insertionSort rrBefore ps).map (fun p => p.burst)).sum_eq]
  have hsumP : sumExec (preemptive_priority ps).gantt
      = (ps.map (fun p => p.burst)).sum := by
    rw [hinvP.busy_eq, totalDeficit_eq_totalBurst _
      (forall_mem_of_forall_pget _ hdoneP), totalBurst_sameStatic _ _ hstatP,
      ((List.perm_insertionSort ppsBefore ps).map (fun p => p.burst)).sum_eq]
  have hneR : (round_robin ps quantum).gantt ≠ [] := by
    intro h
    rw [h] at hsumR
    simp [sumExec] at hsumR
    omega
  have hneP : (preemptive_priority ps).gantt ≠ [] := by
    intro h
    rw [h] at hsumP
    simp [sumExec] at hsumP
    omega
  exact ⟨⟨chainFrom_adjacent 0 _ hinvR.gantt_chain, hneR,
      chainFrom_head 0 _ hinvR.gantt_chain hneR⟩,
    ⟨chainFrom_adjacent 0 _ hinvP.gantt_chain, hneP,
      chainFrom_head 0 _ hinvP.gantt_chain hneP⟩⟩

/-- C2 witness: the contiguity statement instantiated at the sample process
set with quantum 2. -/
theorem c2_witness :
    ValidProcs load_sample ∧ (1 : Int) ≤ 2 ∧
    (((∀ i, i + 1 < (round_robin load_sample 2).gantt.length →
      ((round_robin load_sample 2).gantt.getD i default).stop
        = ((round_robin load_sample 2).gantt.getD (i+1) default).start) ∧
    (round_robin load_sample 2).gantt ≠ [] ∧
    ((round_robin load_sample 2).gantt.headD default).start = 0) ∧
    ((∀ i, i + 1 < (preemptive_priority load_sample).gantt.length →
      ((preemptive_priority load_sample).gantt.getD i default).stop
        = ((preemptive_priority load_sample).gantt.getD (i+1) default).start) ∧
    (preemptive_priority load_sample).gantt ≠ [] ∧
    ((preemptive_priority load_sample).gantt.headD default).start = 0)) :=
  ⟨by decide, by decide, c2_timeline_contiguous_gapless load_sample 2 (by decide) (by decide)⟩

/-- C3: for every valid process set and either engine, the total length of
the execution intervals (idle excluded) of the produced timeline equals the
sum of all processes' bursts. -/
theorem c3_exec_sum_equals_burst_sum (ps : List Process) (quantum : Int)
    (hv : ValidProcs ps) (hq1 : 1 ≤ quantum) :
    sumExec (round_robin ps quantum).gantt = (ps.map (fun p => p.burst)).sum ∧
    sumExec (preemptive_priority ps).gantt = (ps.map (fun p => p.burst)).sum := by
  obtain ⟨hinvR, hstatR, hdoneR, _, _⟩ := round_robin_final ps quantum hv hq1
  obtain ⟨hinvP, hstatP, hdoneP, _, _⟩ := preemptive_priority_final ps hv
  constructor
  · rw [hinvR.busy_eq, totalDeficit_eq_totalBurst _
      (forall_mem_of_forall_pget _ hdoneR), totalBurst_sameStatic _ _ hstatR,
      ((List.perm_insertionSort rrBefore ps).map (fun p => p.burst)).sum_eq]
  · rw [hinvP.busy_eq, totalDeficit_eq_totalBurst _
      (forall_mem_of_forall_pget _ hdoneP), totalBurst_sameStatic _ _ hstatP,
      ((List.perm_insertionSort ppsBefore ps).map (fun p => p.burst)).sum_eq]

/-- C3 witness: the burst-conservation statement instantiated at the sample
process set (total burst 22). -/
theorem c3_witness :
    ValidProcs load_sample ∧ (1 : Int) ≤ 2 ∧
    (sumExec (round_robin load_sample 2).gantt
        = (load_sample.map (fun p => p.burst)).sum ∧
      sumExec (preemptive_priority load_sample).gantt
        = (load_sample.map (fun p => p.burst)).sum) :=
  ⟨by decide, by decide, c3_exec_sum_equals_burst_sum load_sample 2 (by decide) (by decide)⟩

/-- C10: for every valid process set (positive quantum for Round Robin),
neither engine emits a zero-length interval: every interval of either
timeline, execution or idle, has end strictly greater than start. -/
theorem c10_no_zero_length_intervals (ps : List Process) (quantum : Int)
    (hv : ValidProcs ps) (hq1 : 1 ≤ quantum) :
    (∀ g ∈ (round_robin ps quantum).gantt, g.start < g.stop) ∧
    (∀ g ∈ (preemptive_priority ps).gantt, g.start < g.stop) := by
  obtain ⟨hinvR, _, _, _, _⟩ := round_robin_final ps quantum hv hq1
  obtain ⟨hinvP, _, _, _, _⟩ := preemptive_priority_final ps hv
  exact ⟨hinvR.gantt_pos, hinvP.gantt_pos⟩

/-- C10 witness: the positive-length statement instantiated at the sample
process set. -/
theorem c10_witness :
    ValidProcs load_sample ∧ (1 : Int) ≤ 2 ∧
    ((∀ g ∈ (round_robin load_sample 2).gantt, g.start < g.stop) ∧
      (∀ g ∈ (preemptive_priority load_sample).gantt, g.start < g.stop)) :=
  ⟨by decide, by decide, c10_no_zero_length_intervals load_sample 2 (by decide) (by decide)⟩

/-- C8: for every valid process set and either engine, every finalized
process satisfies `completion_time ≥ arrival + burst`, `waiting_time ≥ 0`
and `turnaround_time ≥ burst`, with `turnaround_time = completion_time -
arrival` and `waiting_time = turnaround_time - burst`. -/
theorem c8_per_process_timing_invariants (ps : List Process) (quantum : Int)
    (hv : ValidProcs ps) (hq1 : 1 ≤ quantum) :
    (∀ p ∈ (round_robin ps quantum).procs,
      p.arrival + p.burst ≤ p.completion_time ∧
      0 ≤ p.waiting_time ∧ p.burst ≤ p.turnaround_time ∧
      p.turnaround_time = p.completion_time - p.arrival ∧
      p.waiting_time = p.turnaround_time - p.burst) ∧
    (∀ p ∈ (preemptive_priority ps).procs,
      p.arrival + p.burst ≤ p.completion_time ∧
      0 ≤ p.waiting_time ∧ p.burst ≤ p.turnaround_time ∧
      p.turnaround_time = p.completion_time - p.arrival ∧
      p.waiting_time = p.turnaround_time - p.burst) := by
  obtain ⟨hinvR, _, hdoneR, _, _⟩ := round_robin_final ps quantum hv hq1
  obtain ⟨hinvP, _, hdoneP, _, _⟩ := preemptive_priority_final ps hv
  constructor
  · apply forall_mem_of_forall_pget
    intro j hj
    obtain ⟨hc, ht, hw⟩ := hinvR.finalized j hj (hdoneR j hj)
    refine ⟨hc, by omega, by omega, ht, hw⟩
  · apply forall_mem_of_forall_pget
    intro j hj
    obtain ⟨hc, ht, hw⟩ := hinvP.finalized j hj (hdoneP j hj)
    refine ⟨hc, by omega, by omega, ht, hw⟩

/-- C8 witness: the per-process timing statement instantiated at the sample
process set. -/
theorem c8_witness :
    ValidProcs load_sample ∧ (1 : Int) ≤ 2 ∧
    ((∀ p ∈ (round_robin load_sample 2).procs,
      p.arrival + p.burst ≤ p.completion_time ∧
      0 ≤ p.waiting_time ∧ p.burst ≤ p.turnaround_time ∧
      p.turnaround_time = p.completion_time - p.arrival ∧
      p.waiting_time = p.turnaround_time - p.burst) ∧
    (∀ p ∈ (preemptive_priority load_sample).procs,
      p.arrival + p.burst ≤ p.completion_time ∧
      0 ≤ p.waiting_time ∧ p.burst ≤ p.turnaround_time ∧
      p.turnaround_time = p.completion_time - p.arrival ∧
      p.waiting_time = p.turnaround_time - p.burst)) :=
  ⟨by decide, by decide,
    c8_per_process_timing_invariants load_sample 2 (by decide) (by decide)⟩

/-- C9: for every valid process set (positive bursts, positive quantum for
Round Robin), both simulation loops terminate: with the fuel bound given by
the strictly decreasing remaining-work measure the run is over — every
process is finalized (`remaining = 0`), the completion counter equals the
process count — and any additional fuel leaves the result unchanged. -/
theorem c9_termination_all_finalized (ps : List Process) (quantum : Int)
    (hv : ValidProcs ps) (hq1 : 1 ≤ quantum) :
    (∀ p ∈ (round_robin ps quantum).procs, p.remaining = 0) ∧
    (round_robin ps quantum).completed = ps.length ∧
    (∀ m, rrLoop quantum (rrMeasure (rrInit ps) + 1 + m) (rrInit ps)
        = round_robin ps quantum) ∧
    (∀ p ∈ (preemptive_priority ps).procs, p.remaining = 0) ∧
    (preemptive_priority ps).completed = ps.length ∧
    (∀ m, ppsLoop (ppsMeasure (ppsInit ps) + 1 + m) (ppsInit ps)
        = preemptive_priority ps) := by
  obtain ⟨hinvR, _, hdoneR, hcompR, hlenR⟩ := round_robin_final ps quantum hv hq1
  obtain ⟨hinvP, _, hdoneP, hcompP, hlenP⟩ := preemptive_priority_final ps hv
  have hinv0R : RRInv (rrInit ps) := rrInitCore_inv _ (sortedValid_rr ps hv)
  have hinv0P : PPSInv (ppsInit ps) := ppsInitCore_inv _ (sortedValid_pps ps hv)
  obtain ⟨_, hstopR, _⟩ := rrLoop_master quantum hq1 (rrMeasure (rrInit ps) + 1)
    (rrInit ps) hinv0R (by omega)
  obtain ⟨_, hstopP, _⟩ := ppsLoop_master (ppsMeasure (ppsInit ps) + 1)
    (ppsInit ps) hinv0P (by omega)
  refine ⟨forall_mem_of_forall_pget _ hdoneR, by omega,
    fun m => rrLoop_add quantum (rrMeasure (rrInit ps) + 1) (rrInit ps) m hstopR,
    forall_mem_of_forall_pget _ hdoneP, by omega,
    fun m => ppsLoop_add (ppsMeasure (ppsInit ps) + 1) (ppsInit ps) m hstopP⟩

/-- C9 witness: the termination statement instantiated at the sample process
set. -/
theorem c9_witness :
    ValidProcs load_sample ∧ (1 : Int) ≤ 2 ∧
    ((∀ p ∈ (round_robin load_sample 2).procs, p.remaining = 0) ∧
    (round_robin load_sample 2).completed = load_sample.length ∧
    (∀ m, rrLoop 2 (rrMeasure (rrInit load_sample) + 1 + m) (rrInit load_sample)
        = round_robin load_sample 2) ∧
    (∀ p ∈ (preemptive_priority load_sample).procs, p.remaining = 0) ∧
    (preemptive_priority load_sample).completed = load_sample.length ∧
    (∀ m, ppsLoop (ppsMeasure (ppsInit load_sample) + 1 + m) (ppsInit load_sample)
        = preemptive_priority load_sample)) :=
  ⟨by decide, by decide,
    c9_termination_all_finalized load_sample 2 (by decide) (by decide)⟩

/-- C7: in the Preemptive Priority engine every execution interval has
length exactly 1 tick (for every valid input); on the sample process set,
P1's single 1-tick execution occupies `[0,1)`, after which P2 (priority 1,
arriving at tick 1) preempts P1 (priority 2) and runs starting at tick 1. -/
theorem c7_pps_unit_slices_and_sample (ps : List Process) (hv : ValidProcs ps) :
    (∀ g ∈ (preemptive_priority ps).gantt, g.pid ≠ -1 → g.stop = g.start + 1) ∧
    (preemptive_priority load_sample).gantt.take 2
      = [⟨1, 0, 1⟩, ⟨2, 1, 2⟩] := by
  obtain ⟨hinvP, _, _, _, _⟩ := preemptive_priority_final ps hv
  exact ⟨hinvP.gantt_unit, by decide⟩

/-- C7 witness: instantiated at the sample process set itself. -/
theorem c7_witness :
    ValidProcs load_sample ∧
    ((∀ g ∈ (preemptive_priority load_sample).gantt,
        g.pid ≠ -1 → g.stop = g.start + 1) ∧
      (preemptive_priority load_sample).gantt.take 2
        = [⟨1, 0, 1⟩, ⟨2, 1, 2⟩]) :=
  ⟨by decide, c7_pps_unit_slices_and_sample load_sample (by decide)⟩

/-- C6: in Round Robin, when the process at the queue head is dispatched and
still has remaining work after its slice, any process `j` whose arrival tick
equals the tick at which the quantum ends is admitted to the ready queue
before the preempted process is re-enqueued at the tail: the new queue has
the form `front ++ [i]` with `j ∈ front`.  (The hypotheses are the loop
invariant facts that hold at every dispatch of a valid run: the vector is
sorted by arrival and `j` is not yet admitted.) -/
theorem c6_arrival_at_quantum_end_admitted_first
    (s : RRState) (quantum : Int) (i j : Nat) (rest : List Nat)
    (hq : s.q = i :: rest)
    (hsorted : s.procs.Pairwise (fun a b => a.arrival ≤ b.arrival))
    (hidxle : s.idx ≤ s.procs.length)
    (hj1 : s.idx ≤ j) (hj2 : j < s.procs.length)
    (harr : (pget s.procs j).arrival
      = s.time + min quantum (pget s.procs i).remaining)
    (hrem : min quantum (pget s.procs i).remaining
      < (pget s.procs i).remaining) :
    ∃ front, (rrDispatch quantum s).q = front ++ [i] ∧ j ∈ front := by
  have hdisp : rrDispatch quantum s = rrDispatchCore quantum s i rest := by
    unfold rrDispatch
    rw [hq]
  rw [hdisp]
  have hsort' : ∀ a b, a ≤ b → b < s.procs.length →
      (pget s.procs a).arrival ≤ (pget s.procs b).arrival := by
    intro a b hab hb
    rcases Nat.eq_or_lt_of_le hab with rfl | hlt
    · exact le_refl _
    · have ha : a < s.procs.length := lt_trans hlt hb
      rw [pget_eq_getElem s.procs a ha, pget_eq_getElem s.procs b hb]
      exact List.pairwise_iff_getElem.mp hsorted a b ha hb hlt
  have harr' : (pget s.procs j).arrival
      = s.time + min quantum (markStarted (pget s.procs i) s.time).remaining := by
    rw [markStarted_remaining]
    exact harr
  obtain ⟨A1, A2, A3, A4, A5⟩ := admitLe_spec s.procs
    (s.time + min quantum (markStarted (pget s.procs i) s.time).remaining)
    s.idx rest hidxle
  have hjadm : j < (admitLe s.procs
      (s.time + min quantum (markStarted (pget s.procs i) s.time).remaining)
      s.idx rest).2 := by
    by_contra hcon
    push_neg at hcon
    have hA2lt : (admitLe s.procs
        (s.time + min quantum (markStarted (pget s.procs i) s.time).remaining)
        s.idx rest).2 < s.procs.length := by omega
    have hstop := A5 hA2lt
    have hmono := hsort' _ j hcon hj2
    omega
  unfold rrDispatchCore
  dsimp only
  split
  · next hbr =>
    refine ⟨(admitLe s.procs
        (s.time + min quantum (markStarted (pget s.procs i) s.time).remaining)
        s.idx rest).1, rfl, ?_⟩
    rw [A3]
    refine List.mem_append.mpr (Or.inr ?_)
    rw [List.mem_range'_1]
    omega
  · next hbr =>
    exfalso
    rw [markStarted_remaining] at hbr
    omega

/-- A state of the Round Robin loop just before the first dispatch on the
sample process set: P1 (index 0) is at the queue head, the clock is 0, and
`idx_next_arrival` is 1. -/
def c6State : RRState :=
  ⟨[mkProcess 1 0 5 2, mkProcess 2 1 3 1, mkProcess 3 2 8 4, mkProcess 4 3 6 3],
    [0], 0, 0, 1, []⟩

/-- C6 witness: with quantum 2, P3 (index 2, arrival 2) arrives exactly when
P1's quantum ends at tick 2, and is placed in the queue ahead of P1's
re-enqueued tail position. -/
theorem c6_witness :
    c6State.q = 0 :: [] ∧
    c6State.procs.Pairwise (fun a b => a.arrival ≤ b.arrival) ∧
    c6State.idx ≤ c6State.procs.length ∧
    c6State.idx ≤ 2 ∧ 2 < c6State.procs.length ∧
    (pget c6State.procs 2).arrival
      = c6State.time + min 2 (pget c6State.procs 0).remaining ∧
    min 2 (pget c6State.procs 0).remaining < (pget c6State.procs 0).remaining ∧
    (∃ front, (rrDispatch 2 c6State).q = front ++ [0] ∧ 2 ∈ front) :=
  ⟨rfl, by decide, by decide, by decide, by decide, by decide, by decide,
    c6_arrival_at_quantum_end_admitted_first c6State 2 0 2 [] rfl (by decide)
      (by decide) (by decide) (by decide) (by decide) (by decide)⟩

end SchedulerSim
